import Mathlib

/-!
Verification of the predicate-scan core of the Hyrise fork (sorted segment
search, hot scan loops, and segment iteration dispatch).

The embedding follows the C++ sources:
* `src/lib/operators/table_scan/sorted_segment_search.hpp`
  (`SortedSegmentSearch` and `BaseTableScanImpl`)
* `src/lib/storage/segment_iteration.hpp` (`segment_with_iterators`,
  `segment_for_each`)

Iterator ranges are modelled as a base list of segment positions together
with explicit begin/end indices; `std::lower_bound` / `std::upper_bound`
are modelled by the exact binary-search algorithm of the C++ standard
library, made structurally recursive through a fuel argument that is always
instantiated with the element count (the algorithm performs at most `count`
halving steps).
-/

namespace Hyrise

/-- One step of a segment iterator: the value, the null flag and the
physical chunk offset, as produced by the segment iterables
(`SegmentPosition` in the C++ code). Values are modelled as integers;
`chunk_offset` is a `ChunkOffset` (`uint32_t` in the C++ code), modelled
as a natural number with the 32-bit wrap made explicit where the code
performs arithmetic on it. -/
structure SegmentPosition where
  value : Int
  is_null : Bool
  chunk_offset : Nat
deriving Repr, DecidableEq, Inhabited

/-- RowID from types.hpp: a chunk id together with a chunk offset. -/
structure RowID where
  chunk_id : Nat
  chunk_offset : Nat
deriving Repr, DecidableEq, Inhabited

/-- OrderByMode from types.hpp: sort direction plus null placement.
`Ascending`/`Descending` place nulls first, the `NullsLast` variants place
them last (see the `_is_nulls_first` initialisation in
`SortedSegmentSearch`). -/
inductive OrderByMode
  | Ascending
  | AscendingNullsLast
  | Descending
  | DescendingNullsLast
deriving Repr, DecidableEq

/-- Modelled from the spec: `PredicateCondition` (types.hpp is not part of
the provided sources). The first six constructors are the comparison
conditions in scope of the scan core; `IsNull`, `IsNotNull`, `Like` and
`NotLike` stand for the remaining members of the C++ enumeration, which
the sorted-segment narrowing does not support. -/
inductive PredicateCondition
  | Equals
  | NotEquals
  | LessThan
  | LessThanEquals
  | GreaterThan
  | GreaterThanEquals
  | IsNull
  | IsNotNull
  | Like
  | NotLike
deriving Repr, DecidableEq

/-- The comparison conditions handled by `SortedSegmentSearch`
(every other `PredicateCondition` hits the `Fail` branch of
`_set_begin_and_end`). -/
def isSupportedCondition : PredicateCondition → Bool
  | .Equals => true
  | .NotEquals => true
  | .LessThan => true
  | .LessThanEquals => true
  | .GreaterThan => true
  | .GreaterThanEquals => true
  | _ => false

/-- `_is_ascending` member initialisation of `SortedSegmentSearch`. -/
def isAscendingOf (o : OrderByMode) : Bool :=
  decide (o = OrderByMode.Ascending) || decide (o = OrderByMode.AscendingNullsLast)

/-- `_is_nulls_first` member initialisation of `SortedSegmentSearch`. -/
def isNullsFirstOf (o : OrderByMode) : Bool :=
  decide (o = OrderByMode.Ascending) || decide (o = OrderByMode.Descending)

/-- The binary search of `std::lower_bound`: repeatedly halve the window
`[first, first + count)`, descending into the right half when the probed
element still satisfies `pred` (i.e. compares "before" the search value).
The `fuel` argument makes the recursion structural; since `count` strictly
decreases in every step, any `fuel ≥ count` yields the untruncated result. -/
def lowerBoundAux (pred : SegmentPosition → Bool) (l : List SegmentPosition) :
    Nat → Nat → Nat → Nat
  | 0, first, _ => first
  | fuel + 1, first, count =>
    if count = 0 then first
    else
      let step := count / 2
      if pred (l.getD (first + step) default) then
        lowerBoundAux pred l fuel (first + step + 1) (count - (step + 1))
      else
        lowerBoundAux pred l fuel first step

/-- `std::lower_bound(first, last, value, comp)` over the index window
`[first, last)` of the base list `l`, where `pred p` models
`comp(p, value)`. -/
def lowerBoundWithin (pred : SegmentPosition → Bool) (l : List SegmentPosition)
    (first last : Nat) : Nat :=
  lowerBoundAux pred l (last - first) first (last - first)

/-- The comparator of `SortedSegmentSearch::_get_first_bound`:
`value < search_value` for ascending and `value > search_value` for
descending order. -/
def fbPred (asc : Bool) (v : Int) (p : SegmentPosition) : Bool :=
  if asc then decide (p.value < v) else decide (v < p.value)

/-- The elements passed over by `SortedSegmentSearch::_get_last_bound`:
`std::upper_bound(first, last, v, comp)` advances past exactly the
elements `p` with `¬ comp(v, p)`, where `comp` is `value > search_value`
for ascending and `value < search_value` for descending order. -/
def lbPred (asc : Bool) (v : Int) (p : SegmentPosition) : Bool :=
  if asc then !decide (v < p.value) else !decide (p.value < v)

/-- `SortedSegmentSearch::_get_first_bound`. -/
def getFirstBound (asc : Bool) (v : Int) (l : List SegmentPosition) (b e : Nat) : Nat :=
  lowerBoundWithin (fbPred asc v) l b e

/-- `SortedSegmentSearch::_get_last_bound` (the `std::upper_bound` binary
search, expressed through its passed-over-element predicate). -/
def getLastBound (asc : Bool) (v : Int) (l : List SegmentPosition) (b e : Nat) : Nat :=
  lowerBoundWithin (lbPred asc v) l b e

/-- The sub-list of `l` delimited by the iterator pair `[b, e)`. -/
def subrange (l : List SegmentPosition) (b e : Nat) : List SegmentPosition :=
  (l.drop b).take (e - b)

/-- `SortedSegmentSearch::_set_begin_and_end`: map the predicate condition
and the sort direction to a begin/end assignment. Returns `none` on the
`Fail("Unsupported predicate condition encountered")` branches. For
`Equals` the C++ code first reassigns `_begin` and then computes
`_get_last_bound()` over the already-narrowed range; the model reproduces
this sequencing. -/
def setBeginAndEnd (asc : Bool) (cond : PredicateCondition) (v : Int)
    (l : List SegmentPosition) (b e : Nat) : Option (Nat × Nat) :=
  if cond = PredicateCondition.Equals then
    let b2 := getFirstBound asc v l b e
    let e2 := getLastBound asc v l b2 e
    some (b2, e2)
  else if asc then
    if cond = PredicateCondition.GreaterThanEquals then some (getFirstBound asc v l b e, e)
    else if cond = PredicateCondition.GreaterThan then some (getLastBound asc v l b e, e)
    else if cond = PredicateCondition.LessThanEquals then some (b, getLastBound asc v l b e)
    else if cond = PredicateCondition.LessThan then some (b, getFirstBound asc v l b e)
    else none
  else
    if cond = PredicateCondition.LessThanEquals then some (getFirstBound asc v l b e, e)
    else if cond = PredicateCondition.LessThan then some (getLastBound asc v l b e, e)
    else if cond = PredicateCondition.GreaterThanEquals then some (b, getLastBound asc v l b e)
    else if cond = PredicateCondition.GreaterThan then some (b, getFirstBound asc v l b e)
    else none

/-- `SortedSegmentSearch::_handle_not_equals`: the functor is applied to up
to two sub-ranges; the model returns the concatenation of the positions the
functor iterates over (for the `boost::join` case this is one logical
iteration over both sub-ranges in order). -/
def handleNotEquals (asc : Bool) (v : Int) (l : List SegmentPosition) (b e : Nat) :
    List SegmentPosition :=
  let first_occurrence := getFirstBound asc v l b e
  if first_occurrence = e then
    subrange l b e
  else
    let last_occurrence := getLastBound asc v l b e
    if last_occurrence = e then
      subrange l b first_occurrence
    else if first_occurrence = b then
      subrange l last_occurrence e
    else
      subrange l b first_occurrence ++ subrange l last_occurrence e

/-- The null-exclusion step at the top of
`SortedSegmentSearch::scan_sorted_segment`: one `std::lower_bound` either
moves `_begin` past a leading null run (nulls first) or pulls `_end` before
a trailing null run (nulls last). -/
def excludeNulls (nullsFirst : Bool) (l : List SegmentPosition) (b e : Nat) : Nat × Nat :=
  if nullsFirst then
    (lowerBoundWithin (fun p => p.is_null) l b e, e)
  else
    (b, lowerBoundWithin (fun p => !p.is_null) l b e)

/-- `SortedSegmentSearch::scan_sorted_segment` for the functor that emits
every position of the range(s) it receives: exclude nulls, then either run
the `NotEquals` special case or narrow via `_set_begin_and_end` and emit
the narrowed range. `none` models the fatal unsupported-predicate error. -/
def scanSortedSegment (o : OrderByMode) (cond : PredicateCondition) (v : Int)
    (l : List SegmentPosition) : Option (List SegmentPosition) :=
  let be := excludeNulls (isNullsFirstOf o) l 0 l.length
  if cond = PredicateCondition.NotEquals then
    some (handleNotEquals (isAscendingOf o) v l be.1 be.2)
  else
    match setBeginAndEnd (isAscendingOf o) cond v l be.1 be.2 with
    | some be2 => some (subrange l be2.1 be2.2)
    | none => none

/-- The comparison functor equivalent to a `PredicateCondition`, used by
the plain reference scan (spec side of the refinement claims; conditions
outside the comparison set have no associated comparator). -/
def satisfiesCondition (cond : PredicateCondition) (x v : Int) : Bool :=
  match cond with
  | .Equals => decide (x = v)
  | .NotEquals => !decide (x = v)
  | .LessThan => decide (x < v)
  | .LessThanEquals => decide (x ≤ v)
  | .GreaterThan => decide (v < x)
  | .GreaterThanEquals => decide (v ≤ x)
  | _ => false

/-- The plain O(n) reference scan over the unnarrowed range: keep every
non-null position whose value satisfies the comparison. -/
def naiveScanPositions (cond : PredicateCondition) (v : Int)
    (l : List SegmentPosition) : List SegmentPosition :=
  l.filter (fun p => !p.is_null && satisfiesCondition cond p.value v)

/-- A Boolean predicate holds on a downward-closed set of positions of `w`:
whenever it holds at index `j` it holds at every index `i ≤ j`. All
comparators handed to the binary searches satisfy this on ranges sorted per
the active `OrderByMode`; it is the partition precondition of
`std::lower_bound`. -/
def PrefixClosed (pred : SegmentPosition → Bool) (w : List SegmentPosition) : Prop :=
  ∀ i j : Nat, i ≤ j → j < w.length →
    pred (w.getD j default) = true → pred (w.getD i default) = true

/-- Value order of a sorted run: non-strictly increasing values for
ascending order, non-strictly decreasing for descending order. -/
def valueOrder (asc : Bool) (a b : SegmentPosition) : Prop :=
  if asc then a.value ≤ b.value else b.value ≤ a.value

/-- A value array is sorted per an `OrderByMode` when its nulls form a
contiguous run at the end dictated by the mode and its non-null values are
monotone in the mode's direction. -/
def sortedPer (o : OrderByMode) (l : List SegmentPosition) : Prop :=
  (isNullsFirstOf o = true → PrefixClosed (fun p => p.is_null) l) ∧
  (isNullsFirstOf o = false → PrefixClosed (fun p => !p.is_null) l) ∧
  (l.filter (fun p => !p.is_null)).Pairwise (valueOrder (isAscendingOf o))

/-- Executable check for `PrefixClosed`: once the predicate first fails it
never holds again. -/
def prefixClosedB (pred : SegmentPosition → Bool) (w : List SegmentPosition) : Bool :=
  (w.dropWhile pred).all (fun x => !pred x)

instance (asc : Bool) : DecidableRel (valueOrder asc) := fun a b => by
  unfold valueOrder
  infer_instance

/-- Executable check for `sortedPer`, used to discharge sortedness
hypotheses on concrete inputs. -/
def sortedPerB (o : OrderByMode) (l : List SegmentPosition) : Bool :=
  (!(isNullsFirstOf o) || prefixClosedB (fun p => p.is_null) l) &&
  ((isNullsFirstOf o) || prefixClosedB (fun p => !p.is_null) l) &&
  decide ((l.filter (fun p => !p.is_null)).Pairwise (valueOrder (isAscendingOf o)))

/-- `BaseTableScanImpl::_unary_scan`: visit each position, skip nulls,
emit `RowID{chunk_id, chunk_offset}` when the functor accepts the value.
Appending to `matches_out` is modelled by the returned list. -/
def unaryScan (func : Int → Bool) (cid : Nat) : List SegmentPosition → List RowID
  | [] => []
  | p :: rest =>
    if p.is_null then unaryScan func cid rest
    else if func p.value then
      RowID.mk cid p.chunk_offset :: unaryScan func cid rest
    else unaryScan func cid rest

/-- The branchless per-element match flag of the vectorized block of
`_unary_scan_with_value`: `(!LeftIsNullable | !left.is_null()) & func(left.value(), right_value)`. -/
def vecMatches (leftIsNullable : Bool) (func : Int → Int → Bool) (v : Int)
    (p : SegmentPosition) : Bool :=
  (!leftIsNullable || !p.is_null) && func p.value v

/-- The buffer entry `matches * (left.chunk_offset() + 1)` of the
vectorized block; `chunk_offset` is a `uint32_t`, so the increment wraps
modulo `2 ^ 32`. -/
def vecBufferEntry (leftIsNullable : Bool) (func : Int → Int → Bool) (v : Int)
    (p : SegmentPosition) : Nat :=
  (if vecMatches leftIsNullable func v p then 1 else 0) * ((p.chunk_offset + 1) % 2 ^ 32)

/-- The block-local buffer: one entry per element of the block, in order
(the C++ loop writes `buffer[i]` for `i = 0 .. BUFFER_SIZE-1`). -/
def fillBuffer (leftIsNullable : Bool) (func : Int → Int → Bool) (v : Int)
    (block : List SegmentPosition) : List Nat :=
  block.map (vecBufferEntry leftIsNullable func v)

/-- The flag word built by `match_positions |= static_cast<bool>(buffer[i]) << i`:
bit `i` is set iff `buffer[i]` is non-zero. Because the OR-ed words have
pairwise disjoint set bits, the accumulated word equals this sum. -/
def buildMatchPositions : List Nat → Nat
  | [] => 0
  | b :: rest => (if b ≠ 0 then 1 else 0) + 2 * buildMatchPositions rest

/-- The buffer expansion loop: while `match_positions` is non-zero, emit
`RowID{chunk_id, buffer[buffer_index] - 1}` whenever the low bit is set,
then shift right and advance `buffer_index`. The flag word loses at least
one bit per step, so any `fuel` at least the bit width of the word (64 for
`size_t`) yields the untruncated result. -/
def expandBuffer (buffer : List Nat) (cid : Nat) : Nat → Nat → Nat → List RowID
  | 0, _, _ => []
  | fuel + 1, mp, idx =>
    if mp = 0 then []
    else
      (if mp % 2 = 1 then [RowID.mk cid (buffer.getD idx 0 - 1)] else []) ++
        expandBuffer buffer cid fuel (mp / 2) (idx + 1)

/-- `SIMD_SIZE / sizeof(ValueID)` with a 512-bit register assumption and
4-byte value ids: the vectorized path works on blocks of 16 elements. -/
def BUFFER_SIZE : Nat := 64 / 4

/-- One iteration of the vectorized while-loop: fill the block buffer,
collect the flag word, expand it into the output (fuel 64 covers the
`size_t` flag word). -/
def processBlock (leftIsNullable : Bool) (func : Int → Int → Bool) (v : Int)
    (cid : Nat) (block : List SegmentPosition) : List RowID :=
  let buffer := fillBuffer leftIsNullable func v block
  expandBuffer buffer cid 64 (buildMatchPositions buffer) 0

/-- The trailing scalar loop of `_unary_scan_with_value` (also the entire
body when the vectorized block is disabled): branch-based evaluation of
the identical predicate. -/
def unaryScanWithValueScalar (leftIsNullable : Bool) (func : Int → Int → Bool)
    (v : Int) (cid : Nat) : List SegmentPosition → List RowID
  | [] => []
  | p :: rest =>
    if (!leftIsNullable || !p.is_null) && func p.value v then
      RowID.mk cid p.chunk_offset :: unaryScanWithValueScalar leftIsNullable func v cid rest
    else unaryScanWithValueScalar leftIsNullable func v cid rest

/-- The vectorized while-loop `while (left_end - left_it > BUFFER_SIZE)`
followed by the scalar remainder loop. Each iteration consumes
`BUFFER_SIZE` elements, so any `fuel` at least the input length yields the
untruncated result. -/
def unaryScanWithValueVecLoop (leftIsNullable : Bool) (func : Int → Int → Bool)
    (v : Int) (cid : Nat) : Nat → List SegmentPosition → List RowID
  | 0, input => unaryScanWithValueScalar leftIsNullable func v cid input
  | fuel + 1, input =>
    if BUFFER_SIZE < input.length then
      processBlock leftIsNullable func v cid (input.take BUFFER_SIZE) ++
        unaryScanWithValueVecLoop leftIsNullable func v cid fuel (input.drop BUFFER_SIZE)
    else unaryScanWithValueScalar leftIsNullable func v cid input

/-- `BaseTableScanImpl::_unary_scan_with_value`. `vectorize` models the
compile-time guard `!IS_DEBUG && LeftIterator::IsVectorizable`: when it
holds the block-buffered path consumes full blocks and the scalar loop
finishes the remainder; otherwise the scalar loop processes everything. -/
def unaryScanWithValue (leftIsNullable vectorize : Bool) (func : Int → Int → Bool)
    (v : Int) (cid : Nat) (input : List SegmentPosition) : List RowID :=
  if vectorize then
    unaryScanWithValueVecLoop leftIsNullable func v cid input.length input
  else
    unaryScanWithValueScalar leftIsNullable func v cid input

/-- `BaseTableScanImpl::_binary_scan`: advance both iterators in lock
step, skip a position when either side is null, emit the left position's
offset when the functor accepts the pair. The caller guarantees equal
lengths; the model stops when either list ends. -/
def binaryScan (func : Int → Int → Bool) (cid : Nat) :
    List SegmentPosition → List SegmentPosition → List RowID
  | [], _ => []
  | _ :: _, [] => []
  | p :: lt, q :: rt =>
    if p.is_null || q.is_null then binaryScan func cid lt rt
    else if func p.value q.value then
      RowID.mk cid p.chunk_offset :: binaryScan func cid lt rt
    else binaryScan func cid lt rt

/-- `SegmentIterationTypeErasure` from segment_iteration.hpp. -/
inductive SegmentIterationTypeErasure
  | OnlyInDebug
  | Always
deriving Repr, DecidableEq

/-- A segment as seen by `segment_with_iterators`: its positions and
whether its iterable is a `PointAccessibleSegmentIterable` (the
`is_point_accessible_segment_iterable_v` trait). The data-type resolution
step only recovers the compile-time value type and is identity on the
iterated positions, so it is not represented. -/
structure Segment where
  values : List SegmentPosition
  pointAccessible : Bool

/-- Point access through a position filter: each filtered `RowID` is
dereferenced at its chunk offset. -/
def pointAccessValues (seg : Segment) (pf : List RowID) : List SegmentPosition :=
  pf.map (fun rid => seg.values.getD rid.chunk_offset default)

/-- `segment_with_iterators` (overload without a position filter): the
functor always receives the whole segment, whichever resolution strategy
is active. The result is the range handed to the functor. -/
def segmentWithIterators (isDebug : Bool) (te : SegmentIterationTypeErasure)
    (seg : Segment) : Option (List SegmentPosition) :=
  some seg.values

/-- `segment_with_iterators` (overload with a position filter). A null
`shared_ptr` filter (`none`) forwards to the filterless overload. With a
filter, the statically specialized branch checks
`is_point_accessible_segment_iterable_v` and hits
`Fail("Cannot access non-PointAccessibleSegmentIterable with position_filter")`
otherwise; the type-erased branch is modelled from the spec: a position
filter against an iteration abstraction without point access fails with
the same capability error. `none` models the fatal error (the functor is
never invoked). -/
def segmentWithIteratorsFiltered (isDebug : Bool) (te : SegmentIterationTypeErasure)
    (seg : Segment) (position_filter : Option (List RowID)) :
    Option (List SegmentPosition) :=
  match position_filter with
  | none => segmentWithIterators isDebug te seg
  | some pf =>
    if isDebug || te = SegmentIterationTypeErasure.Always then
      if seg.pointAccessible then some (pointAccessValues seg pf) else none
    else
      if seg.pointAccessible then some (pointAccessValues seg pf) else none

/-- `segment_for_each` (overload without a position filter): iterate the
range obtained from `segment_with_iterators`, calling the functor per
value; the result is the sequence of visited positions. -/
def segmentForEach (isDebug : Bool) (te : SegmentIterationTypeErasure)
    (seg : Segment) : Option (List SegmentPosition) :=
  segmentWithIterators isDebug te seg

/-- `segment_for_each` (overload with a position filter). -/
def segmentForEachFiltered (isDebug : Bool) (te : SegmentIterationTypeErasure)
    (seg : Segment) (position_filter : Option (List RowID)) :
    Option (List SegmentPosition) :=
  segmentWithIteratorsFiltered isDebug te seg position_filter

theorem PrefixClosed.tail {pred : SegmentPosition → Bool} {x : SegmentPosition}
    {t : List SegmentPosition} (h : PrefixClosed pred (x :: t)) : PrefixClosed pred t := by
  intro i j hij hj hp
  have h' := h (i + 1) (j + 1) (by omega) (by simpa using Nat.succ_lt_succ hj)
  simpa using h' (by simpa using hp)

theorem PrefixClosed.all_false {pred : SegmentPosition → Bool} {x : SegmentPosition}
    {t : List SegmentPosition} (h : PrefixClosed pred (x :: t)) (hx : pred x = false) :
    ∀ y ∈ x :: t, pred y = false := by
  intro y hy
  rcases List.mem_iff_getElem.mp hy with ⟨j, hj, rfl⟩
  cases hb : pred (x :: t)[j] with
  | false => rfl
  | true =>
    exfalso
    have hyt : pred ((x :: t).getD j default) = true := by
      rw [List.getD_eq_getElem _ _ hj]; exact hb
    have h0 := h 0 j (Nat.zero_le j) hj hyt
    simp only [List.getD_cons_zero] at h0
    rw [hx] at h0
    exact Bool.false_ne_true h0

theorem prefixClosed_getD_iff {pred : SegmentPosition → Bool} :
    ∀ (w : List SegmentPosition), PrefixClosed pred w →
      ∀ i, i < w.length →
        (pred (w.getD i default) = true ↔ i < (w.takeWhile pred).length)
  | [], _, i, hi => by simp at hi
  | x :: t, h, i, hi => by
    cases hpx : pred x with
    | true =>
      rw [List.takeWhile_cons, hpx]
      cases i with
      | zero => simpa using hpx
      | succ n =>
        have ht := prefixClosed_getD_iff t h.tail n (by simpa using hi)
        simpa [Nat.succ_lt_succ_iff] using ht
    | false =>
      rw [List.takeWhile_cons, hpx]
      have hall := h.all_false hpx
      have : pred ((x :: t).getD i default) = false := by
        have hmem : (x :: t).getD i default ∈ x :: t := by
          rw [List.getD_eq_getElem _ _ hi]
          exact List.getElem_mem hi
        exact hall _ hmem
      rw [this]
      simp

theorem take_takeWhile_length (pred : SegmentPosition → Bool) :
    ∀ (w : List SegmentPosition), w.take (w.takeWhile pred).length = w.takeWhile pred
  | [] => rfl
  | x :: t => by
    cases hpx : pred x with
    | true =>
      rw [List.takeWhile_cons, hpx]
      simpa using take_takeWhile_length pred t
    | false => rw [List.takeWhile_cons, hpx]; rfl

theorem drop_takeWhile_length (pred : SegmentPosition → Bool) :
    ∀ (w : List SegmentPosition), w.drop (w.takeWhile pred).length = w.dropWhile pred
  | [] => rfl
  | x :: t => by
    cases hpx : pred x with
    | true =>
      rw [List.takeWhile_cons, hpx, List.dropWhile_cons, hpx]
      simpa using drop_takeWhile_length pred t
    | false => rw [List.takeWhile_cons, hpx, List.dropWhile_cons, hpx]; rfl

theorem takeWhile_eq_filter_of_prefixClosed {pred : SegmentPosition → Bool} :
    ∀ (w : List SegmentPosition), PrefixClosed pred w →
      w.takeWhile pred = w.filter pred
  | [], _ => rfl
  | x :: t, h => by
    cases hpx : pred x with
    | true =>
      rw [List.takeWhile_cons, hpx, List.filter_cons, hpx]
      simpa using takeWhile_eq_filter_of_prefixClosed t h.tail
    | false =>
      rw [List.takeWhile_cons, hpx, List.filter_cons, hpx]
      have hall := h.all_false hpx
      have : t.filter pred = [] := by
        rw [List.filter_eq_nil_iff]
        intro a ha
        simp [hall a (List.mem_cons_of_mem x ha)]
      simp [this]

theorem dropWhile_eq_filter_of_prefixClosed {pred : SegmentPosition → Bool} :
    ∀ (w : List SegmentPosition), PrefixClosed pred w →
      w.dropWhile pred = w.filter (fun x => !pred x)
  | [], _ => rfl
  | x :: t, h => by
    cases hpx : pred x with
    | true =>
      rw [List.dropWhile_cons, hpx, List.filter_cons]
      simpa [hpx] using dropWhile_eq_filter_of_prefixClosed t h.tail
    | false =>
      rw [List.dropWhile_cons, hpx, List.filter_cons]
      have hall := h.all_false hpx
      have : t.filter (fun x => !pred x) = t := by
        rw [List.filter_eq_self]
        intro a ha
        simp [hall a (List.mem_cons_of_mem x ha)]
      simp [hpx, this]

theorem lowerBoundAux_eq {pred : SegmentPosition → Bool} {l : List SegmentPosition} :
    ∀ (fuel count first k : Nat), count ≤ fuel → k ≤ count →
      (∀ i, i < count → (pred (l.getD (first + i) default) = true ↔ i < k)) →
      lowerBoundAux pred l fuel first count = first + k := by
  intro fuel
  induction fuel with
  | zero =>
    intro count first k hcf hkc _
    have hc0 : count = 0 := Nat.le_zero.mp hcf
    have hk0 : k = 0 := by omega
    subst hc0; subst hk0
    simp [lowerBoundAux]
  | succ fuel ih =>
    intro count first k hcf hkc hiff
    by_cases hc0 : count = 0
    · have hk0 : k = 0 := by omega
      subst hc0; subst hk0
      simp [lowerBoundAux]
    · have hcpos : 0 < count := Nat.pos_of_ne_zero hc0
      have hstep : count / 2 < count := Nat.div_lt_self hcpos (by omega)
      simp only [lowerBoundAux, if_neg hc0]
      cases hpred : pred (l.getD (first + count / 2) default) with
      | true =>
        rw [if_pos rfl]
        have hklt : count / 2 < k := (hiff (count / 2) hstep).mp hpred
        rw [ih (count - (count / 2 + 1)) (first + count / 2 + 1) (k - (count / 2 + 1))
          (by omega) (by omega) ?_]
        · omega
        · intro i hi
          have h' := hiff (count / 2 + 1 + i) (by omega)
          have harith : first + count / 2 + 1 + i = first + (count / 2 + 1 + i) := by omega
          rw [harith]
          rw [h']
          omega
      | false =>
        rw [if_neg (by simp)]
        have hkle : k ≤ count / 2 := by
          by_contra hlt
          have := (hiff (count / 2) hstep).mpr (by omega)
          rw [hpred] at this
          exact Bool.false_ne_true this
        exact ih (count / 2) first k (by omega) hkle
          (fun i hi => hiff i (by omega))

theorem subrange_zero_length (l : List SegmentPosition) : subrange l 0 l.length = l := by
  simp [subrange]

theorem subrange_length {l : List SegmentPosition} {b e : Nat} (hbe : b ≤ e)
    (he : e ≤ l.length) : (subrange l b e).length = e - b := by
  simp only [subrange, List.length_take, List.length_drop]
  omega

theorem subrange_getD {l : List SegmentPosition} {b e i : Nat} (hie : i < e - b)
    (he : e ≤ l.length) :
    (subrange l b e).getD i default = l.getD (b + i) default := by
  simp only [subrange, List.getD_eq_getElem?_getD]
  rw [List.getElem?_take, if_pos hie, List.getElem?_drop]

theorem subrange_drop (l : List SegmentPosition) (b e k : Nat) :
    (subrange l b e).drop k = subrange l (b + k) e := by
  simp only [subrange]
  rw [List.drop_take, List.drop_drop]
  congr 1
  omega

theorem subrange_take {l : List SegmentPosition} {b e : Nat} (k : Nat) (hk : k ≤ e - b) :
    (subrange l b e).take k = subrange l b (b + k) := by
  simp only [subrange]
  rw [List.take_take]
  congr 1
  omega

theorem subrange_sublist (l : List SegmentPosition) (b e : Nat) :
    (subrange l b e).Sublist l := by
  exact ((l.drop b).take_sublist _).trans (l.drop_sublist b)

theorem lowerBoundWithin_eq {pred : SegmentPosition → Bool} {l : List SegmentPosition}
    {b e : Nat} (hbe : b ≤ e) (he : e ≤ l.length)
    (hpc : PrefixClosed pred (subrange l b e)) :
    lowerBoundWithin pred l b e = b + ((subrange l b e).takeWhile pred).length := by
  have hwlen : (subrange l b e).length = e - b := subrange_length hbe he
  have hkle : ((subrange l b e).takeWhile pred).length ≤ e - b := by
    rw [← hwlen]
    exact (List.takeWhile_sublist pred).length_le
  exact lowerBoundAux_eq (e - b) (e - b) b ((subrange l b e).takeWhile pred).length
    le_rfl hkle (fun i hi => by
      rw [← subrange_getD hi he]
      exact prefixClosed_getD_iff _ hpc i (by omega))

theorem prefixClosed_of_pairwise {R : SegmentPosition → SegmentPosition → Prop}
    {w : List SegmentPosition} (hw : w.Pairwise R) {pred : SegmentPosition → Bool}
    (hdown : ∀ a b, R a b → pred b = true → pred a = true) :
    PrefixClosed pred w := by
  intro i j hij hj hp
  rcases Nat.eq_or_lt_of_le hij with rfl | hlt
  · exact hp
  · have hi : i < w.length := lt_trans hlt hj
    have hr := (List.pairwise_iff_getElem.mp hw) i j hi hj hlt
    rw [List.getD_eq_getElem _ _ hj] at hp
    rw [List.getD_eq_getElem _ _ hi]
    exact hdown _ _ hr hp

theorem boolEqOfIff {a b : Bool} (h : a = true ↔ b = true) : a = b := by
  cases a <;> cases b <;> simp_all

theorem takeWhile_eq_nil_of_all_false {p : SegmentPosition → Bool}
    {w : List SegmentPosition} (h : ∀ x ∈ w, p x = false) : w.takeWhile p = [] := by
  cases w with
  | nil => rfl
  | cons x t =>
    rw [List.takeWhile_cons, h x (List.mem_cons_self x t)]
    simp

theorem all_false_of_takeWhile_length_zero {p : SegmentPosition → Bool}
    {w : List SegmentPosition} (hpc : PrefixClosed p w)
    (h : (w.takeWhile p).length = 0) : ∀ x ∈ w, p x = false := by
  cases w with
  | nil => simp
  | cons x t =>
    have hx : p x = false := by
      cases hpx : p x with
      | false => rfl
      | true => rw [List.takeWhile_cons, hpx] at h; simp at h
    exact hpc.all_false hx

theorem all_true_of_takeWhile_length_eq {p : SegmentPosition → Bool}
    {w : List SegmentPosition} (h : (w.takeWhile p).length = w.length) :
    ∀ x ∈ w, p x = true := by
  have heq : w.takeWhile p = w := (List.takeWhile_sublist p).eq_of_length h
  intro x hx
  exact List.mem_takeWhile_imp (heq ▸ hx)

theorem takeWhile_append_dropWhile_eq_filter {p1 p2 : SegmentPosition → Bool} :
    ∀ (w : List SegmentPosition), PrefixClosed p1 w → PrefixClosed p2 w →
      (∀ x ∈ w, p1 x = true → p2 x = true) →
      w.takeWhile p1 ++ w.dropWhile p2 = w.filter (fun x => p1 x || !p2 x)
  | [], _, _, _ => rfl
  | x :: t, h1, h2, himp => by
    cases hp1 : p1 x with
    | true =>
      have hp2 : p2 x = true := himp x (List.mem_cons_self x t) hp1
      rw [List.takeWhile_cons, hp1, List.dropWhile_cons, hp2, List.filter_cons]
      have ih := takeWhile_append_dropWhile_eq_filter t h1.tail h2.tail
        (fun y hy => himp y (List.mem_cons_of_mem x hy))
      simp only [hp1, Bool.true_or, if_pos, List.cons_append]
      rw [ih]
    | false =>
      have hall1 := h1.all_false hp1
      cases hp2 : p2 x with
      | true =>
        rw [List.takeWhile_cons, hp1, List.dropWhile_cons, hp2, List.filter_cons]
        have ih := takeWhile_append_dropWhile_eq_filter t h1.tail h2.tail
          (fun y hy => himp y (List.mem_cons_of_mem x hy))
        have htw : t.takeWhile p1 = [] :=
          takeWhile_eq_nil_of_all_false (fun y hy => hall1 y (List.mem_cons_of_mem x hy))
        rw [htw] at ih
        simp only [List.nil_append] at ih
        simp [hp1, hp2, ih]
      | false =>
        rw [List.takeWhile_cons, hp1, List.dropWhile_cons, hp2, List.filter_cons]
        have hall2 := h2.all_false hp2
        have hrest : t.filter (fun y => p1 y || !p2 y) = t := by
          rw [List.filter_eq_self]
          intro a ha
          simp [hall2 a (List.mem_cons_of_mem x ha)]
        simp [hp1, hp2, hrest]

theorem take_tw_eq_filter {pred : SegmentPosition → Bool} {w : List SegmentPosition}
    (hpc : PrefixClosed pred w) :
    w.take (w.takeWhile pred).length = w.filter pred := by
  rw [take_takeWhile_length, takeWhile_eq_filter_of_prefixClosed _ hpc]

theorem drop_tw_eq_filter {pred : SegmentPosition → Bool} {w : List SegmentPosition}
    (hpc : PrefixClosed pred w) :
    w.drop (w.takeWhile pred).length = w.filter (fun x => !pred x) := by
  rw [drop_takeWhile_length, dropWhile_eq_filter_of_prefixClosed _ hpc]

theorem prefixClosed_fbPred {asc : Bool} {v : Int} {w : List SegmentPosition}
    (hw : w.Pairwise (valueOrder asc)) : PrefixClosed (fbPred asc v) w := by
  apply prefixClosed_of_pairwise hw
  intro a b hr hp
  cases asc <;> simp only [valueOrder, if_true, if_false, Bool.false_eq_true] at hr <;>
    simp only [fbPred, if_true, if_false, Bool.false_eq_true, decide_eq_true_eq] at hp ⊢ <;>
    omega

theorem prefixClosed_lbPred {asc : Bool} {v : Int} {w : List SegmentPosition}
    (hw : w.Pairwise (valueOrder asc)) : PrefixClosed (lbPred asc v) w := by
  apply prefixClosed_of_pairwise hw
  intro a b hr hp
  cases asc <;> simp only [valueOrder, if_true, if_false, Bool.false_eq_true] at hr <;>
    simp only [lbPred, if_true, if_false, Bool.false_eq_true, Bool.not_eq_true',
      decide_eq_false_iff_not, not_lt] at hp ⊢ <;>
    omega

theorem getFirstBound_eq {asc : Bool} {v : Int} {l : List SegmentPosition} {b e : Nat}
    (hbe : b ≤ e) (he : e ≤ l.length)
    (hw : (subrange l b e).Pairwise (valueOrder asc)) :
    getFirstBound asc v l b e = b + ((subrange l b e).takeWhile (fbPred asc v)).length :=
  lowerBoundWithin_eq hbe he (prefixClosed_fbPred hw)

theorem getLastBound_eq {asc : Bool} {v : Int} {l : List SegmentPosition} {b e : Nat}
    (hbe : b ≤ e) (he : e ≤ l.length)
    (hw : (subrange l b e).Pairwise (valueOrder asc)) :
    getLastBound asc v l b e = b + ((subrange l b e).takeWhile (lbPred asc v)).length :=
  lowerBoundWithin_eq hbe he (prefixClosed_lbPred hw)

theorem excludeNulls_spec {o : OrderByMode} {l : List SegmentPosition} (hs : sortedPer o l) :
    (excludeNulls (isNullsFirstOf o) l 0 l.length).1 ≤
        (excludeNulls (isNullsFirstOf o) l 0 l.length).2 ∧
      (excludeNulls (isNullsFirstOf o) l 0 l.length).2 ≤ l.length ∧
      subrange l (excludeNulls (isNullsFirstOf o) l 0 l.length).1
          (excludeNulls (isNullsFirstOf o) l 0 l.length).2 =
        l.filter (fun p => !p.is_null) := by
  cases hnf : isNullsFirstOf o with
  | true =>
    have hpc : PrefixClosed (fun p => p.is_null) l := hs.1 hnf
    have hpc' : PrefixClosed (fun p => p.is_null) (subrange l 0 l.length) := by
      rw [subrange_zero_length]; exact hpc
    have hlb : lowerBoundWithin (fun p => p.is_null) l 0 l.length =
        0 + ((subrange l 0 l.length).takeWhile (fun p => p.is_null)).length :=
      lowerBoundWithin_eq (Nat.zero_le _) le_rfl hpc'
    rw [subrange_zero_length] at hlb
    have hkle : (l.takeWhile (fun p => p.is_null)).length ≤ l.length :=
      (List.takeWhile_sublist _).length_le
    simp only [excludeNulls, if_pos rfl, hlb, Nat.zero_add, if_true]
    refine ⟨hkle, le_rfl, ?_⟩
    have := subrange_drop l 0 l.length (l.takeWhile (fun p => p.is_null)).length
    rw [subrange_zero_length] at this
    rw [Nat.zero_add] at this
    rw [← this, drop_tw_eq_filter hpc]
  | false =>
    have hpc : PrefixClosed (fun p => !p.is_null) l := hs.2.1 hnf
    have hpc' : PrefixClosed (fun p => !p.is_null) (subrange l 0 l.length) := by
      rw [subrange_zero_length]; exact hpc
    have hlb : lowerBoundWithin (fun p => !p.is_null) l 0 l.length =
        0 + ((subrange l 0 l.length).takeWhile (fun p => !p.is_null)).length :=
      lowerBoundWithin_eq (Nat.zero_le _) le_rfl hpc'
    rw [subrange_zero_length] at hlb
    have hkle : (l.takeWhile (fun p => !p.is_null)).length ≤ l.length :=
      (List.takeWhile_sublist _).length_le
    simp only [excludeNulls, Bool.false_eq_true, if_neg, hlb, Nat.zero_add, if_false]
    refine ⟨Nat.zero_le _, hkle, ?_⟩
    have hsub : subrange l 0 (l.takeWhile (fun p => !p.is_null)).length =
        l.take (l.takeWhile (fun p => !p.is_null)).length := by
      simp [subrange]
    rw [hsub, take_tw_eq_filter hpc]

theorem subrange_from_bound {l : List SegmentPosition} {b e : Nat}
    {p : SegmentPosition → Bool} (hpc : PrefixClosed p (subrange l b e)) :
    subrange l (b + ((subrange l b e).takeWhile p).length) e =
      (subrange l b e).filter (fun x => !p x) := by
  rw [← subrange_drop, drop_tw_eq_filter hpc]

theorem subrange_to_bound {l : List SegmentPosition} {b e : Nat} (hbe : b ≤ e)
    (he : e ≤ l.length) {p : SegmentPosition → Bool}
    (hpc : PrefixClosed p (subrange l b e)) :
    subrange l b (b + ((subrange l b e).takeWhile p).length) =
      (subrange l b e).filter p := by
  have hk : ((subrange l b e).takeWhile p).length ≤ e - b := by
    have := (List.takeWhile_sublist p (l := subrange l b e)).length_le
    rw [subrange_length hbe he] at this
    exact this
  rw [← subrange_take _ hk, take_tw_eq_filter hpc]

theorem setBeginAndEnd_emit {asc : Bool} {cond : PredicateCondition} {v : Int}
    {l : List SegmentPosition} {b e : Nat} (hbe : b ≤ e) (he : e ≤ l.length)
    (hw : (subrange l b e).Pairwise (valueOrder asc))
    (hc : isSupportedCondition cond = true) (hne : cond ≠ PredicateCondition.NotEquals) :
    ∃ b2 e2, setBeginAndEnd asc cond v l b e = some (b2, e2) ∧
      subrange l b2 e2 =
        (subrange l b e).filter (fun p => satisfiesCondition cond p.value v) := by
  have hpcf : PrefixClosed (fbPred asc v) (subrange l b e) := prefixClosed_fbPred hw
  have hpcl : PrefixClosed (lbPred asc v) (subrange l b e) := prefixClosed_lbPred hw
  have hfb : getFirstBound asc v l b e =
      b + ((subrange l b e).takeWhile (fbPred asc v)).length := getFirstBound_eq hbe he hw
  have hlb : getLastBound asc v l b e =
      b + ((subrange l b e).takeWhile (lbPred asc v)).length := getLastBound_eq hbe he hw
  have hk1 : ((subrange l b e).takeWhile (fbPred asc v)).length ≤ e - b := by
    have := (List.takeWhile_sublist (fbPred asc v) (l := subrange l b e)).length_le
    rw [subrange_length hbe he] at this; exact this
  cases cond with
  | Equals =>
    have hbe' : b + ((subrange l b e).takeWhile (fbPred asc v)).length ≤ e := by omega
    have hwd : subrange l (b + ((subrange l b e).takeWhile (fbPred asc v)).length) e =
        (subrange l b e).drop ((subrange l b e).takeWhile (fbPred asc v)).length :=
      (subrange_drop l b e _).symm
    have hw' : (subrange l (b + ((subrange l b e).takeWhile (fbPred asc v)).length) e).Pairwise
        (valueOrder asc) := by
      rw [hwd]; exact hw.sublist (List.drop_sublist _ _)
    have hpcl' : PrefixClosed (lbPred asc v)
        (subrange l (b + ((subrange l b e).takeWhile (fbPred asc v)).length) e) :=
      prefixClosed_lbPred hw'
    have hlb' := getLastBound_eq (v := v) hbe' he hw'
    refine ⟨b + ((subrange l b e).takeWhile (fbPred asc v)).length,
      b + ((subrange l b e).takeWhile (fbPred asc v)).length +
        ((subrange l (b + ((subrange l b e).takeWhile (fbPred asc v)).length) e).takeWhile
          (lbPred asc v)).length, ?_, ?_⟩
    · show some (getFirstBound asc v l b e,
        getLastBound asc v l (getFirstBound asc v l b e) e) = _
      rw [hfb, hlb']
    · rw [subrange_to_bound hbe' he hpcl', hwd, drop_tw_eq_filter hpcf,
        List.filter_filter]
      apply List.filter_congr
      intro x _
      apply boolEqOfIff
      cases asc <;>
        simp only [lbPred, fbPred, satisfiesCondition, if_true, if_false,
          Bool.false_eq_true, Bool.and_eq_true, Bool.not_eq_true',
          decide_eq_false_iff_not, decide_eq_true_eq, not_lt] <;>
        omega
  | GreaterThanEquals =>
    cases asc with
    | true =>
      refine ⟨b + ((subrange l b e).takeWhile (fbPred true v)).length, e, ?_, ?_⟩
      · show some (getFirstBound true v l b e, e) = _
        rw [hfb]
      · rw [subrange_from_bound hpcf]
        apply List.filter_congr
        intro x _
        apply boolEqOfIff
        simp only [fbPred, satisfiesCondition, if_true, Bool.not_eq_true',
          decide_eq_false_iff_not, decide_eq_true_eq, not_lt]
    | false =>
      refine ⟨b, b + ((subrange l b e).takeWhile (lbPred false v)).length, ?_, ?_⟩
      · show some (b, getLastBound false v l b e) = _
        rw [hlb]
      · rw [subrange_to_bound hbe he hpcl]
        apply List.filter_congr
        intro x _
        apply boolEqOfIff
        simp only [lbPred, satisfiesCondition, if_false, Bool.false_eq_true,
          Bool.not_eq_true', decide_eq_false_iff_not, decide_eq_true_eq, not_lt]
  | GreaterThan =>
    cases asc with
    | true =>
      refine ⟨b + ((subrange l b e).takeWhile (lbPred true v)).length, e, ?_, ?_⟩
      · show some (getLastBound true v l b e, e) = _
        rw [hlb]
      · rw [subrange_from_bound hpcl]
        apply List.filter_congr
        intro x _
        apply boolEqOfIff
        simp only [lbPred, satisfiesCondition, if_true, Bool.not_not,
          decide_eq_true_eq]
    | false =>
      refine ⟨b, b + ((subrange l b e).takeWhile (fbPred false v)).length, ?_, ?_⟩
      · show some (b, getFirstBound false v l b e) = _
        rw [hfb]
      · rw [subrange_to_bound hbe he hpcf]
        apply List.filter_congr
        intro x _
        apply boolEqOfIff
        simp only [fbPred, satisfiesCondition, if_false, Bool.false_eq_true,
          decide_eq_true_eq]
  | LessThanEquals =>
    cases asc with
    | true =>
      refine ⟨b, b + ((subrange l b e).takeWhile (lbPred true v)).length, ?_, ?_⟩
      · show some (b, getLastBound true v l b e) = _
        rw [hlb]
      · rw [subrange_to_bound hbe he hpcl]
        apply List.filter_congr
        intro x _
        apply boolEqOfIff
        simp only [lbPred, satisfiesCondition, if_true, Bool.not_eq_true',
          decide_eq_false_iff_not, decide_eq_true_eq, not_lt]
    | false =>
      refine ⟨b + ((subrange l b e).takeWhile (fbPred false v)).length, e, ?_, ?_⟩
      · show some (getFirstBound false v l b e, e) = _
        rw [hfb]
      · rw [subrange_from_bound hpcf]
        apply List.filter_congr
        intro x _
        apply boolEqOfIff
        simp only [fbPred, satisfiesCondition, if_false, Bool.false_eq_true,
          Bool.not_eq_true', decide_eq_false_iff_not, decide_eq_true_eq, not_lt]
  | LessThan =>
    cases asc with
    | true =>
      refine ⟨b, b + ((subrange l b e).takeWhile (fbPred true v)).length, ?_, ?_⟩
      · show some (b, getFirstBound true v l b e) = _
        rw [hfb]
      · rw [subrange_to_bound hbe he hpcf]
        apply List.filter_congr
        intro x _
        apply boolEqOfIff
        simp only [fbPred, satisfiesCondition, if_true, decide_eq_true_eq]
    | false =>
      refine ⟨b + ((subrange l b e).takeWhile (lbPred false v)).length, e, ?_, ?_⟩
      · show some (getLastBound false v l b e, e) = _
        rw [hlb]
      · rw [subrange_from_bound hpcl]
        apply List.filter_congr
        intro x _
        apply boolEqOfIff
        simp only [lbPred, satisfiesCondition, if_false, Bool.false_eq_true,
          Bool.not_not, decide_eq_true_eq]
  | NotEquals => exact absurd rfl hne
  | IsNull => simp [isSupportedCondition] at hc
  | IsNotNull => simp [isSupportedCondition] at hc
  | Like => simp [isSupportedCondition] at hc
  | NotLike => simp [isSupportedCondition] at hc

theorem handleNotEquals_emit {asc : Bool} {v : Int} {l : List SegmentPosition} {b e : Nat}
    (hbe : b ≤ e) (he : e ≤ l.length)
    (hw : (subrange l b e).Pairwise (valueOrder asc)) :
    handleNotEquals asc v l b e =
      (subrange l b e).filter
        (fun p => satisfiesCondition PredicateCondition.NotEquals p.value v) := by
  have hpcf : PrefixClosed (fbPred asc v) (subrange l b e) := prefixClosed_fbPred hw
  have hpcl : PrefixClosed (lbPred asc v) (subrange l b e) := prefixClosed_lbPred hw
  have hfb : getFirstBound asc v l b e =
      b + ((subrange l b e).takeWhile (fbPred asc v)).length := getFirstBound_eq hbe he hw
  have hlb : getLastBound asc v l b e =
      b + ((subrange l b e).takeWhile (lbPred asc v)).length := getLastBound_eq hbe he hw
  have hlen : (subrange l b e).length = e - b := subrange_length hbe he
  have himp : ∀ x ∈ subrange l b e, fbPred asc v x = true → lbPred asc v x = true := by
    intro x _ hx
    cases asc <;>
      simp only [fbPred, lbPred, if_true, if_false, Bool.false_eq_true,
        decide_eq_true_eq, Bool.not_eq_true', decide_eq_false_iff_not, not_lt] at hx ⊢ <;>
      omega
  simp only [handleNotEquals]
  rw [hfb, hlb]
  by_cases h1 : b + ((subrange l b e).takeWhile (fbPred asc v)).length = e
  · rw [if_pos h1]
    have hklen : ((subrange l b e).takeWhile (fbPred asc v)).length =
        (subrange l b e).length := by
      rw [hlen]; omega
    have hall := all_true_of_takeWhile_length_eq hklen
    symm
    rw [List.filter_eq_self]
    intro x hx
    have hfx := hall x hx
    cases asc <;>
      simp only [fbPred, satisfiesCondition, if_true, if_false, Bool.false_eq_true,
        decide_eq_true_eq, Bool.not_eq_true', decide_eq_false_iff_not] at hfx ⊢ <;>
      omega
  · rw [if_neg h1]
    by_cases h2 : b + ((subrange l b e).takeWhile (lbPred asc v)).length = e
    · rw [if_pos h2]
      have hall2 : ∀ x ∈ subrange l b e, lbPred asc v x = true :=
        all_true_of_takeWhile_length_eq (by rw [hlen]; omega)
      rw [subrange_to_bound hbe he hpcf]
      apply List.filter_congr
      intro x hx
      have h2x := hall2 x hx
      apply boolEqOfIff
      cases asc <;>
        simp only [fbPred, lbPred, satisfiesCondition, if_true, if_false,
          Bool.false_eq_true, decide_eq_true_eq, Bool.not_eq_true',
          decide_eq_false_iff_not, not_lt] at h2x ⊢ <;>
        omega
    · rw [if_neg h2]
      by_cases h3 : b + ((subrange l b e).takeWhile (fbPred asc v)).length = b
      · rw [if_pos h3]
        have hk10 : ((subrange l b e).takeWhile (fbPred asc v)).length = 0 := by omega
        have hallf := all_false_of_takeWhile_length_zero hpcf hk10
        rw [subrange_from_bound hpcl]
        apply List.filter_congr
        intro x hx
        have hfx := hallf x hx
        apply boolEqOfIff
        cases asc <;>
          simp [fbPred, lbPred, satisfiesCondition] at hfx ⊢ <;>
          omega
      · rw [if_neg h3]
        rw [subrange_to_bound hbe he hpcf, subrange_from_bound hpcl,
          ← takeWhile_eq_filter_of_prefixClosed _ hpcf,
          ← dropWhile_eq_filter_of_prefixClosed _ hpcl,
          takeWhile_append_dropWhile_eq_filter _ hpcf hpcl himp]
        apply List.filter_congr
        intro x _
        apply boolEqOfIff
        cases asc <;>
          simp only [fbPred, lbPred, satisfiesCondition, if_true, if_false,
            Bool.false_eq_true, Bool.or_eq_true, decide_eq_true_eq, Bool.not_not,
            Bool.not_eq_true', decide_eq_false_iff_not, not_lt] <;>
          omega

theorem scanSortedSegment_eq_filter {o : OrderByMode} {cond : PredicateCondition} {v : Int}
    {l : List SegmentPosition} (hs : sortedPer o l) (hc : isSupportedCondition cond = true) :
    scanSortedSegment o cond v l =
      some ((l.filter (fun p => !p.is_null)).filter
        (fun p => satisfiesCondition cond p.value v)) := by
  obtain ⟨hbe, he, hwin⟩ := excludeNulls_spec hs
  have hw : (subrange l (excludeNulls (isNullsFirstOf o) l 0 l.length).1
      (excludeNulls (isNullsFirstOf o) l 0 l.length).2).Pairwise
      (valueOrder (isAscendingOf o)) := by
    rw [hwin]; exact hs.2.2
  by_cases hne : cond = PredicateCondition.NotEquals
  · subst hne
    simp only [scanSortedSegment, if_pos rfl]
    rw [handleNotEquals_emit hbe he hw, hwin]
    simp
  · obtain ⟨b2, e2, hset, hemit⟩ := setBeginAndEnd_emit (v := v) hbe he hw hc hne
    simp only [scanSortedSegment, if_neg hne]
    rw [hset]
    simp only [hemit, hwin]

theorem unaryScan_eq_filterMap (func : Int → Bool) (cid : Nat) :
    ∀ input : List SegmentPosition,
      unaryScan func cid input =
        (input.filter (fun p => !p.is_null && func p.value)).map
          (fun p => RowID.mk cid p.chunk_offset)
  | [] => rfl
  | p :: rest => by
    cases hn : p.is_null with
    | true =>
      simp only [unaryScan, if_pos rfl, List.filter_cons, hn]
      simpa using unaryScan_eq_filterMap func cid rest
    | false =>
      cases hf : func p.value with
      | true =>
        simp only [unaryScan, hn, hf, List.filter_cons]
        simpa using unaryScan_eq_filterMap func cid rest
      | false =>
        simp only [unaryScan, hn, hf, List.filter_cons]
        simpa using unaryScan_eq_filterMap func cid rest

theorem unaryScanWithValueScalar_eq_filterMap (ln : Bool) (func : Int → Int → Bool)
    (v : Int) (cid : Nat) :
    ∀ input : List SegmentPosition,
      unaryScanWithValueScalar ln func v cid input =
        (input.filter (vecMatches ln func v)).map (fun p => RowID.mk cid p.chunk_offset)
  | [] => rfl
  | p :: rest => by
    have ih := unaryScanWithValueScalar_eq_filterMap ln func v cid rest
    simp only [unaryScanWithValueScalar, List.filter_cons]
    cases hm : vecMatches ln func v p with
    | true =>
      have hm' : ((!ln || !p.is_null) && func p.value v) = true := hm
      rw [hm', if_pos rfl, if_pos rfl, ih]
      rfl
    | false =>
      have hm' : ((!ln || !p.is_null) && func p.value v) = false := hm
      rw [hm', if_neg (by simp), if_neg (by simp), ih]

theorem unaryScanWithValueScalar_append (ln : Bool) (func : Int → Int → Bool)
    (v : Int) (cid : Nat) (a b : List SegmentPosition) :
    unaryScanWithValueScalar ln func v cid (a ++ b) =
      unaryScanWithValueScalar ln func v cid a ++ unaryScanWithValueScalar ln func v cid b := by
  simp [unaryScanWithValueScalar_eq_filterMap, List.filter_append]

theorem vecMatches_of_entry_ne_zero {ln : Bool} {func : Int → Int → Bool} {v : Int}
    {p : SegmentPosition} (h : vecBufferEntry ln func v p ≠ 0) :
    vecMatches ln func v p = true := by
  by_contra hm
  apply h
  simp only [vecBufferEntry, Bool.not_eq_true] at hm ⊢
  rw [hm]
  simp

theorem entry_eq_of_matches {ln : Bool} {func : Int → Int → Bool} {v : Int}
    {p : SegmentPosition} (hm : vecMatches ln func v p = true)
    (hw : p.chunk_offset + 1 < 2 ^ 32) :
    vecBufferEntry ln func v p = p.chunk_offset + 1 := by
  have hmod : (p.chunk_offset + 1) % 2 ^ 32 = p.chunk_offset + 1 := Nat.mod_eq_of_lt hw
  unfold vecBufferEntry
  rw [hm, if_pos rfl, Nat.one_mul, hmod]

theorem expandBuffer_shift (cid bhd : Nat) (rest : List Nat) :
    ∀ fuel mp idx, expandBuffer (bhd :: rest) cid fuel mp (idx + 1) =
      expandBuffer rest cid fuel mp idx := by
  intro fuel
  induction fuel with
  | zero => intro mp idx; rfl
  | succ fuel ih =>
    intro mp idx
    by_cases hmp : mp = 0
    · simp [expandBuffer, hmp]
    · simp only [expandBuffer, if_neg hmp]
      rw [ih]
      rfl

theorem buildMatchPositions_eq_zero : ∀ {buffer : List Nat},
    buildMatchPositions buffer = 0 → ∀ x ∈ buffer, x = 0
  | [], _, x, hx => by simp at hx
  | b :: rest, h, x, hx => by
    simp only [buildMatchPositions] at h
    have hb : b = 0 := by
      by_cases hb0 : b = 0
      · exact hb0
      · exfalso; rw [if_pos hb0] at h; omega
    have hrest : buildMatchPositions rest = 0 := by
      by_cases hb0 : b ≠ 0
      · rw [if_pos hb0] at h; omega
      · rw [if_neg hb0] at h; omega
    rcases List.mem_cons.mp hx with rfl | hx'
    · exact hb
    · exact buildMatchPositions_eq_zero hrest x hx'

theorem buildMatchPositions_lt : ∀ (buffer : List Nat),
    buildMatchPositions buffer < 2 ^ buffer.length
  | [] => by simp [buildMatchPositions]
  | b :: rest => by
    have ih := buildMatchPositions_lt rest
    simp only [buildMatchPositions, List.length_cons, pow_succ]
    by_cases hb : b ≠ 0 <;> [rw [if_pos hb]; rw [if_neg hb]] <;> omega

theorem expandBuffer_spec (cid : Nat) : ∀ (buffer : List Nat) (fuel : Nat),
    buildMatchPositions buffer < 2 ^ fuel →
    expandBuffer buffer cid fuel (buildMatchPositions buffer) 0 =
      (buffer.filter (fun x => decide (x ≠ 0))).map (fun x => RowID.mk cid (x - 1))
  | [], fuel, _ => by
    cases fuel with
    | zero => rfl
    | succ fuel => simp [buildMatchPositions, expandBuffer]
  | b :: rest, fuel, hlt => by
    by_cases hmp : buildMatchPositions (b :: rest) = 0
    · have hall := buildMatchPositions_eq_zero hmp
      have hfilter : (b :: rest).filter (fun x => decide (x ≠ 0)) = [] := by
        rw [List.filter_eq_nil_iff]
        intro a ha
        simp [hall a ha]
      rw [hmp, hfilter]
      cases fuel with
      | zero => rfl
      | succ fuel => simp [expandBuffer]
    · have hfpos : fuel ≠ 0 := by
        intro h0
        rw [h0] at hlt
        simp at hlt
        omega
      obtain ⟨fuel', rfl⟩ := Nat.exists_eq_succ_of_ne_zero hfpos
      simp only [expandBuffer, if_neg hmp]
      have hbit : (if b ≠ 0 then 1 else 0) + 2 * buildMatchPositions rest =
          buildMatchPositions (b :: rest) := rfl
      have hmod : buildMatchPositions (b :: rest) % 2 = (if b ≠ 0 then 1 else 0) := by
        rw [← hbit]
        by_cases hb : b ≠ 0 <;> [rw [if_pos hb]; rw [if_neg hb]] <;> omega
      have hdiv : buildMatchPositions (b :: rest) / 2 = buildMatchPositions rest := by
        rw [← hbit]
        by_cases hb : b ≠ 0 <;> [rw [if_pos hb]; rw [if_neg hb]] <;> omega
      have hrest_lt : buildMatchPositions rest < 2 ^ fuel' := by
        rw [← hbit] at hlt
        rw [pow_succ] at hlt
        by_cases hb : b ≠ 0 <;> [rw [if_pos hb] at hlt; rw [if_neg hb] at hlt] <;> omega
      rw [hmod, hdiv, expandBuffer_shift, expandBuffer_spec cid rest fuel' hrest_lt]
      by_cases hb : b ≠ 0
      · rw [if_pos (by rw [if_pos hb]), List.filter_cons, if_pos (by simpa using hb)]
        simp only [List.getD_cons_zero, List.map_cons, List.singleton_append]
      · rw [if_neg (by rw [if_neg hb]; exact one_ne_zero ∘ Eq.symm), List.filter_cons,
          if_neg (by simpa using hb)]
        simp

theorem processBlock_eq (ln : Bool) (func : Int → Int → Bool) (v : Int) (cid : Nat)
    (block : List SegmentPosition) (hlen : block.length ≤ 64) :
    processBlock ln func v cid block =
      ((fillBuffer ln func v block).filter (fun x => decide (x ≠ 0))).map
        (fun x => RowID.mk cid (x - 1)) := by
  have h2 : (fillBuffer ln func v block).length = block.length := List.length_map _ _
  have hblt : buildMatchPositions (fillBuffer ln func v block) < 2 ^ 64 :=
    lt_of_lt_of_le (buildMatchPositions_lt _)
      (Nat.pow_le_pow_right (by norm_num) (by rw [h2]; exact hlen))
  exact expandBuffer_spec cid _ 64 hblt

theorem processBlock_structure (ln : Bool) (func : Int → Int → Bool) (v : Int) (cid : Nat)
    (block : List SegmentPosition) (hlen : block.length ≤ 64)
    (hoff : ∀ p ∈ block, p.chunk_offset < 2 ^ 32) :
    processBlock ln func v cid block =
      (block.filter (fun p => decide (vecBufferEntry ln func v p ≠ 0))).map
        (fun p => RowID.mk cid p.chunk_offset) := by
  rw [processBlock_eq ln func v cid block hlen]
  unfold fillBuffer
  rw [List.filter_map, List.map_map]
  have hfil : List.filter ((fun x => decide (x ≠ 0)) ∘ vecBufferEntry ln func v) block =
      List.filter (fun p => decide (vecBufferEntry ln func v p ≠ 0)) block := rfl
  rw [hfil]
  apply List.map_congr_left
  intro p hp
  rw [List.mem_filter] at hp
  obtain ⟨hpb, hpe⟩ := hp
  have hne : vecBufferEntry ln func v p ≠ 0 := by simpa using hpe
  have hm := vecMatches_of_entry_ne_zero hne
  have ho := hoff p hpb
  have hw : p.chunk_offset + 1 < 2 ^ 32 := by
    rcases Nat.lt_or_ge (p.chunk_offset + 1) (2 ^ 32) with h | h
    · exact h
    · exfalso
      have hexact : p.chunk_offset + 1 = 2 ^ 32 := by omega
      apply hne
      unfold vecBufferEntry
      rw [hexact]
      simp
  simp only [Function.comp_apply]
  rw [entry_eq_of_matches hm hw]
  simp

theorem processBlock_eq_scalar (ln : Bool) (func : Int → Int → Bool) (v : Int) (cid : Nat)
    (block : List SegmentPosition) (hlen : block.length ≤ 64)
    (hoff : ∀ p ∈ block, p.chunk_offset + 1 < 2 ^ 32) :
    processBlock ln func v cid block = unaryScanWithValueScalar ln func v cid block := by
  have hoff' : ∀ p ∈ block, p.chunk_offset < 2 ^ 32 := fun p hp => by
    have := hoff p hp; omega
  rw [processBlock_structure ln func v cid block hlen hoff',
    unaryScanWithValueScalar_eq_filterMap]
  congr 1
  apply List.filter_congr
  intro p hp
  apply boolEqOfIff
  simp only [decide_eq_true_eq]
  constructor
  · exact fun h => vecMatches_of_entry_ne_zero h
  · intro hm
    rw [entry_eq_of_matches hm (hoff p hp)]
    omega

theorem unaryScanWithValueScalar_structure (ln : Bool) (func : Int → Int → Bool) (v : Int)
    (cid : Nat) (input : List SegmentPosition) :
    ∃ sub : List SegmentPosition, sub.Sublist input ∧
      (∀ p ∈ sub, vecMatches ln func v p = true) ∧
      unaryScanWithValueScalar ln func v cid input =
        sub.map (fun p => RowID.mk cid p.chunk_offset) :=
  ⟨input.filter (vecMatches ln func v), List.filter_sublist _,
    fun p hp => (List.mem_filter.mp hp).2,
    unaryScanWithValueScalar_eq_filterMap ln func v cid input⟩

theorem vecLoop_eq_scalar (ln : Bool) (func : Int → Int → Bool) (v : Int) (cid : Nat) :
    ∀ (fuel : Nat) (input : List SegmentPosition), input.length ≤ fuel →
      (∀ p ∈ input, p.chunk_offset + 1 < 2 ^ 32) →
      unaryScanWithValueVecLoop ln func v cid fuel input =
        unaryScanWithValueScalar ln func v cid input := by
  intro fuel
  induction fuel with
  | zero => intro input _ _; rfl
  | succ fuel ih =>
    intro input hlen hoff
    have hb16 : BUFFER_SIZE = 16 := rfl
    by_cases hgt : BUFFER_SIZE < input.length
    · have hlen16 : (input.take BUFFER_SIZE).length = BUFFER_SIZE := by
        rw [List.length_take]; omega
      simp only [unaryScanWithValueVecLoop, if_pos hgt]
      rw [processBlock_eq_scalar ln func v cid _ (by omega)
          (fun p hp => hoff p (List.mem_of_mem_take hp)),
        ih (input.drop BUFFER_SIZE) (by rw [List.length_drop]; omega)
          (fun p hp => hoff p (List.mem_of_mem_drop hp)),
        ← unaryScanWithValueScalar_append, List.take_append_drop]
    · simp only [unaryScanWithValueVecLoop, if_neg hgt]

theorem vecLoop_structure (ln : Bool) (func : Int → Int → Bool) (v : Int) (cid : Nat) :
    ∀ (fuel : Nat) (input : List SegmentPosition), input.length ≤ fuel →
      (∀ p ∈ input, p.chunk_offset < 2 ^ 32) →
      ∃ sub : List SegmentPosition, sub.Sublist input ∧
        (∀ p ∈ sub, vecMatches ln func v p = true) ∧
        unaryScanWithValueVecLoop ln func v cid fuel input =
          sub.map (fun p => RowID.mk cid p.chunk_offset) := by
  intro fuel
  induction fuel with
  | zero => intro input _ _; exact unaryScanWithValueScalar_structure ln func v cid input
  | succ fuel ih =>
    intro input hlen hoff
    have hb16 : BUFFER_SIZE = 16 := rfl
    by_cases hgt : BUFFER_SIZE < input.length
    · have hlen16 : (input.take BUFFER_SIZE).length = BUFFER_SIZE := by
        rw [List.length_take]; omega
      obtain ⟨sub2, hsub2, hm2, heq2⟩ := ih (input.drop BUFFER_SIZE)
        (by rw [List.length_drop]; omega)
        (fun p hp => hoff p (List.mem_of_mem_drop hp))
      refine ⟨(input.take BUFFER_SIZE).filter
          (fun p => decide (vecBufferEntry ln func v p ≠ 0)) ++ sub2, ?_, ?_, ?_⟩
      · have hs : ((input.take BUFFER_SIZE).filter
            (fun p => decide (vecBufferEntry ln func v p ≠ 0)) ++ sub2).Sublist
            (input.take BUFFER_SIZE ++ input.drop BUFFER_SIZE) :=
          (List.filter_sublist _).append hsub2
        rw [List.take_append_drop] at hs
        exact hs
      · intro p hp
        rcases List.mem_append.mp hp with hp' | hp'
        · exact vecMatches_of_entry_ne_zero (by simpa using (List.mem_filter.mp hp').2)
        · exact hm2 p hp'
      · simp only [unaryScanWithValueVecLoop, if_pos hgt]
        rw [processBlock_structure ln func v cid _ (by omega)
            (fun p hp => hoff p (List.mem_of_mem_take hp)), heq2, List.map_append]
    · simp only [unaryScanWithValueVecLoop, if_neg hgt]
      exact unaryScanWithValueScalar_structure ln func v cid input

theorem binaryScan_structure (func : Int → Int → Bool) (cid : Nat) :
    ∀ (left right : List SegmentPosition),
      ∃ sub : List SegmentPosition, sub.Sublist left ∧
        (∀ p ∈ sub, p.is_null = false) ∧
        binaryScan func cid left right = sub.map (fun p => RowID.mk cid p.chunk_offset)
  | [], _ => ⟨[], by simp, by simp, rfl⟩
  | _ :: _, [] => ⟨[], by simp, by simp, rfl⟩
  | p :: lt, q :: rt => by
    obtain ⟨sub, hsub, hnull, heq⟩ := binaryScan_structure func cid lt rt
    by_cases hn : (p.is_null || q.is_null) = true
    · exact ⟨sub, hsub.cons p, hnull, by
        simp only [binaryScan, if_pos hn]
        exact heq⟩
    · have hn' : p.is_null = false := by
        have hfalse : (p.is_null || q.is_null) = false := by
          cases hor : (p.is_null || q.is_null) with
          | true => exact absurd hor hn
          | false => rfl
        exact (Bool.or_eq_false_iff.mp hfalse).1
      cases hf : func p.value q.value with
      | true =>
        refine ⟨p :: sub, hsub.cons₂ p, ?_, ?_⟩
        · intro x hx
          rcases List.mem_cons.mp hx with rfl | hx'
          · exact hn'
          · exact hnull x hx'
        · simp only [binaryScan, if_neg hn, hf, if_pos rfl, heq, List.map_cons]
          simp
      | false =>
        refine ⟨sub, hsub.cons p, hnull, ?_⟩
        simp only [binaryScan, if_neg hn, hf]
        simp only [Bool.false_eq_true, if_neg, if_false]
        exact heq

theorem prefixClosed_of_B {pred : SegmentPosition → Bool} :
    ∀ (w : List SegmentPosition), prefixClosedB pred w = true → PrefixClosed pred w
  | [], _ => by intro i j _ hj _; simp at hj
  | x :: t, h => by
    cases hpx : pred x with
    | true =>
      have ht : prefixClosedB pred t = true := by
        unfold prefixClosedB at h ⊢
        rw [List.dropWhile_cons, hpx] at h
        simpa using h
      have hpc := prefixClosed_of_B t ht
      intro i j hij hj hp
      cases i with
      | zero => simpa using hpx
      | succ i' =>
        cases j with
        | zero => omega
        | succ j' =>
          have := hpc i' j' (by omega) (by simpa using hj) (by simpa using hp)
          simpa using this
    | false =>
      have hall : ∀ y ∈ x :: t, pred y = false := by
        unfold prefixClosedB at h
        rw [List.dropWhile_cons, hpx] at h
        simp only [Bool.false_eq_true, if_neg, if_false, List.all_eq_true] at h
        intro y hy
        simpa using h y hy
      intro i j hij hj hp
      have hmem : (x :: t).getD j default ∈ x :: t := by
        rw [List.getD_eq_getElem _ _ hj]
        exact List.getElem_mem hj
      rw [hall _ hmem] at hp
      cases hp

theorem sortedPer_of_B {o : OrderByMode} {l : List SegmentPosition}
    (h : sortedPerB o l = true) : sortedPer o l := by
  simp only [sortedPerB, Bool.and_eq_true, Bool.or_eq_true, Bool.not_eq_true',
    decide_eq_true_eq] at h
  obtain ⟨⟨h1, h2⟩, h3⟩ := h
  refine ⟨?_, ?_, h3⟩
  · intro hnf
    rcases h1 with h1 | h1
    · rw [hnf] at h1; cases h1
    · exact prefixClosed_of_B l h1
  · intro hnf
    rcases h2 with h2 | h2
    · rw [hnf] at h2; cases h2
    · exact prefixClosed_of_B l h2

/-- C1: for every supported comparison condition (`Equals`, `NotEquals`,
`LessThan`, `LessThanEquals`, `GreaterThan`, `GreaterThanEquals`), every
`OrderByMode`, and every value array sorted per that mode (duplicates,
all-null, no-null, empty and single-element arrays included),
`scan_sorted_segment` — binary-search narrowing followed by emission of the
narrowed range(s) — produces exactly the positions of a plain O(n) scan
with the equivalent comparison functor over the unnarrowed range. -/
theorem claim_C1_sorted_scan_refines_naive (o : OrderByMode) (cond : PredicateCondition)
    (v : Int) (l : List SegmentPosition) (hs : sortedPer o l)
    (hc : isSupportedCondition cond = true) :
    scanSortedSegment o cond v l = some (naiveScanPositions cond v l) := by
  rw [scanSortedSegment_eq_filter hs hc]
  unfold naiveScanPositions
  rw [List.filter_filter]
  refine congrArg some (List.filter_congr fun x _ => ?_)
  exact Bool.and_comm _ _

/-- Witness for C1: the descending nulls-last array `[5,4,3,2,1,null,null]`
scanned with `GreaterThan 3`. -/
theorem claim_C1_witness :
    sortedPer OrderByMode.DescendingNullsLast
        [⟨5, false, 0⟩, ⟨4, false, 1⟩, ⟨3, false, 2⟩, ⟨2, false, 3⟩, ⟨1, false, 4⟩,
          ⟨0, true, 5⟩, ⟨0, true, 6⟩] ∧
      isSupportedCondition PredicateCondition.GreaterThan = true ∧
      scanSortedSegment OrderByMode.DescendingNullsLast PredicateCondition.GreaterThan 3
          [⟨5, false, 0⟩, ⟨4, false, 1⟩, ⟨3, false, 2⟩, ⟨2, false, 3⟩, ⟨1, false, 4⟩,
            ⟨0, true, 5⟩, ⟨0, true, 6⟩] =
        some (naiveScanPositions PredicateCondition.GreaterThan 3
          [⟨5, false, 0⟩, ⟨4, false, 1⟩, ⟨3, false, 2⟩, ⟨2, false, 3⟩, ⟨1, false, 4⟩,
            ⟨0, true, 5⟩, ⟨0, true, 6⟩]) :=
  ⟨sortedPer_of_B (by decide), by decide,
    claim_C1_sorted_scan_refines_naive _ _ _ _ (sortedPer_of_B (by decide)) (by decide)⟩

/-- C4: on a range sorted per any order-by mode, the position set emitted for
`NotEquals` equals the full null-free range minus the position set emitted
for `Equals` with the same search value. -/
theorem claim_C4_not_equals_complement (o : OrderByMode) (v : Int)
    (l : List SegmentPosition) (hs : sortedPer o l) :
    ∃ eqL neL, scanSortedSegment o PredicateCondition.Equals v l = some eqL ∧
      scanSortedSegment o PredicateCondition.NotEquals v l = some neL ∧
      neL = (l.filter (fun p => !p.is_null)).filter (fun p => !decide (p ∈ eqL)) := by
  refine ⟨_, _, scanSortedSegment_eq_filter hs rfl, scanSortedSegment_eq_filter hs rfl, ?_⟩
  apply List.filter_congr
  intro x hx
  apply boolEqOfIff
  constructor
  · intro hL
    have hne : ¬ x.value = v := by simpa [satisfiesCondition] using hL
    have hnotmem : x ∉ (l.filter (fun p => !p.is_null)).filter
        (fun p => satisfiesCondition PredicateCondition.Equals p.value v) := by
      intro hmem
      have h2 := (List.mem_filter.mp hmem).2
      simp only [satisfiesCondition, decide_eq_true_eq] at h2
      exact hne h2
    rw [Bool.not_eq_true', decide_eq_false_iff_not]
    exact hnotmem
  · intro hR
    rw [Bool.not_eq_true', decide_eq_false_iff_not] at hR
    have hnot : x ∉ (l.filter (fun p => !p.is_null)).filter
        (fun p => satisfiesCondition PredicateCondition.Equals p.value v) := hR
    have hne : ¬ x.value = v := by
      intro hval
      exact hnot (List.mem_filter.mpr ⟨hx, by simp [satisfiesCondition, hval]⟩)
    simpa [satisfiesCondition] using hne

/-- Witness for C4: the ascending array `[1,1,2,2,3]` with search value 2. -/
theorem claim_C4_witness :
    sortedPer OrderByMode.Ascending
        [⟨1, false, 0⟩, ⟨1, false, 1⟩, ⟨2, false, 2⟩, ⟨2, false, 3⟩, ⟨3, false, 4⟩] ∧
      (∃ eqL neL,
        scanSortedSegment OrderByMode.Ascending PredicateCondition.Equals 2
            [⟨1, false, 0⟩, ⟨1, false, 1⟩, ⟨2, false, 2⟩, ⟨2, false, 3⟩, ⟨3, false, 4⟩] =
          some eqL ∧
        scanSortedSegment OrderByMode.Ascending PredicateCondition.NotEquals 2
            [⟨1, false, 0⟩, ⟨1, false, 1⟩, ⟨2, false, 2⟩, ⟨2, false, 3⟩, ⟨3, false, 4⟩] =
          some neL ∧
        neL = ([⟨1, false, 0⟩, ⟨1, false, 1⟩, ⟨2, false, 2⟩, ⟨2, false, 3⟩,
            ⟨3, false, 4⟩].filter (fun p => !p.is_null)).filter
          (fun p => !decide (p ∈ eqL))) :=
  ⟨sortedPer_of_B (by decide),
    claim_C4_not_equals_complement _ _ _ (sortedPer_of_B (by decide))⟩

/-- C7: for every `PredicateCondition` outside the six comparison conditions
(e.g. `IsNull` or `Like`), `scan_sorted_segment` reaches the mapping in
`_set_begin_and_end` and fails with the fatal unsupported-predicate error,
for every order-by mode (ascending and descending alike); for every
condition inside that set it never fails. -/
theorem claim_C7_unsupported_predicate_fails (o : OrderByMode) (cond : PredicateCondition)
    (v : Int) (l : List SegmentPosition) :
    (scanSortedSegment o cond v l).isSome = isSupportedCondition cond := by
  cases cond <;> cases hasc : isAscendingOf o <;>
    simp [scanSortedSegment, setBeginAndEnd, isSupportedCondition, hasc]

/-- C3: for `NotEquals` on a sorted, null-excluded range, the code emits the
whole range when `first_bound` hits the range end; otherwise only
`[begin, first_bound)` when `last_bound` hits the range end; otherwise only
`[last_bound, end)` when `first_bound` equals `begin`; otherwise the
concatenation of `[begin, first_bound)` and `[last_bound, end)` as one
iteration, with chunk offsets strictly increasing across the concatenation
seam. -/
theorem claim_C3_not_equals_emission (asc : Bool) (v : Int) (l : List SegmentPosition)
    (hsort : l.Pairwise (valueOrder asc))
    (hnonull : ∀ p ∈ l, p.is_null = false)
    (hinc : l.Pairwise (fun a b => a.chunk_offset < b.chunk_offset)) :
    (getFirstBound asc v l 0 l.length = l.length →
      handleNotEquals asc v l 0 l.length = l) ∧
    (getFirstBound asc v l 0 l.length ≠ l.length →
      getLastBound asc v l 0 l.length = l.length →
      handleNotEquals asc v l 0 l.length =
        subrange l 0 (getFirstBound asc v l 0 l.length)) ∧
    (getFirstBound asc v l 0 l.length ≠ l.length →
      getLastBound asc v l 0 l.length ≠ l.length →
      getFirstBound asc v l 0 l.length = 0 →
      handleNotEquals asc v l 0 l.length =
        subrange l (getLastBound asc v l 0 l.length) l.length) ∧
    (getFirstBound asc v l 0 l.length ≠ l.length →
      getLastBound asc v l 0 l.length ≠ l.length →
      getFirstBound asc v l 0 l.length ≠ 0 →
      handleNotEquals asc v l 0 l.length =
        subrange l 0 (getFirstBound asc v l 0 l.length) ++
          subrange l (getLastBound asc v l 0 l.length) l.length ∧
      (subrange l 0 (getFirstBound asc v l 0 l.length) ++
          subrange l (getLastBound asc v l 0 l.length) l.length).Pairwise
        (fun a b => a.chunk_offset < b.chunk_offset)) := by
  refine ⟨?_, ?_, ?_, ?_⟩
  · intro h1
    simp only [handleNotEquals, if_pos h1]
    exact subrange_zero_length l
  · intro h1 h2
    simp only [handleNotEquals, if_neg h1, if_pos h2]
  · intro h1 h2 h3
    simp only [handleNotEquals, if_neg h1, if_neg h2, if_pos h3]
  · intro h1 h2 h3
    have hw0 : (subrange l 0 l.length).Pairwise (valueOrder asc) := by
      rw [subrange_zero_length]; exact hsort
    have hemit := handleNotEquals_emit (v := v) (Nat.zero_le l.length) le_rfl hw0
    have heq : handleNotEquals asc v l 0 l.length =
        subrange l 0 (getFirstBound asc v l 0 l.length) ++
          subrange l (getLastBound asc v l 0 l.length) l.length := by
      simp only [handleNotEquals, if_neg h1, if_neg h2, if_neg h3]
    refine ⟨heq, ?_⟩
    rw [← heq, hemit, subrange_zero_length]
    exact hinc.sublist (List.filter_sublist _)

/-- Witness for C3: the ascending array `[1,1,2,2,3]` with search value 2
(the two-sided concatenation case). -/
theorem claim_C3_witness :
    ([⟨1, false, 0⟩, ⟨1, false, 1⟩, ⟨2, false, 2⟩, ⟨2, false, 3⟩,
        ⟨3, false, 4⟩] : List SegmentPosition).Pairwise (valueOrder true) ∧
      (∀ p ∈ ([⟨1, false, 0⟩, ⟨1, false, 1⟩, ⟨2, false, 2⟩, ⟨2, false, 3⟩,
        ⟨3, false, 4⟩] : List SegmentPosition), p.is_null = false) ∧
      (getFirstBound true 2 [⟨1, false, 0⟩, ⟨1, false, 1⟩, ⟨2, false, 2⟩, ⟨2, false, 3⟩,
          ⟨3, false, 4⟩] 0 5 ≠ 5 →
        getLastBound true 2 [⟨1, false, 0⟩, ⟨1, false, 1⟩, ⟨2, false, 2⟩, ⟨2, false, 3⟩,
          ⟨3, false, 4⟩] 0 5 ≠ 5 →
        getFirstBound true 2 [⟨1, false, 0⟩, ⟨1, false, 1⟩, ⟨2, false, 2⟩, ⟨2, false, 3⟩,
          ⟨3, false, 4⟩] 0 5 ≠ 0 →
        handleNotEquals true 2 [⟨1, false, 0⟩, ⟨1, false, 1⟩, ⟨2, false, 2⟩, ⟨2, false, 3⟩,
            ⟨3, false, 4⟩] 0 5 =
          subrange [⟨1, false, 0⟩, ⟨1, false, 1⟩, ⟨2, false, 2⟩, ⟨2, false, 3⟩,
              ⟨3, false, 4⟩] 0
            (getFirstBound true 2 [⟨1, false, 0⟩, ⟨1, false, 1⟩, ⟨2, false, 2⟩,
              ⟨2, false, 3⟩, ⟨3, false, 4⟩] 0 5) ++
            subrange [⟨1, false, 0⟩, ⟨1, false, 1⟩, ⟨2, false, 2⟩, ⟨2, false, 3⟩,
                ⟨3, false, 4⟩]
              (getLastBound true 2 [⟨1, false, 0⟩, ⟨1, false, 1⟩, ⟨2, false, 2⟩,
                ⟨2, false, 3⟩, ⟨3, false, 4⟩] 0 5) 5 ∧
        (subrange [⟨1, false, 0⟩, ⟨1, false, 1⟩, ⟨2, false, 2⟩, ⟨2, false, 3⟩,
              ⟨3, false, 4⟩] 0
            (getFirstBound true 2 [⟨1, false, 0⟩, ⟨1, false, 1⟩, ⟨2, false, 2⟩,
              ⟨2, false, 3⟩, ⟨3, false, 4⟩] 0 5) ++
            subrange [⟨1, false, 0⟩, ⟨1, false, 1⟩, ⟨2, false, 2⟩, ⟨2, false, 3⟩,
                ⟨3, false, 4⟩]
              (getLastBound true 2 [⟨1, false, 0⟩, ⟨1, false, 1⟩, ⟨2, false, 2⟩,
                ⟨2, false, 3⟩, ⟨3, false, 4⟩] 0 5) 5).Pairwise
          (fun a b => a.chunk_offset < b.chunk_offset)) :=
  ⟨by decide, by decide,
    (claim_C3_not_equals_emission true 2
      [⟨1, false, 0⟩, ⟨1, false, 1⟩, ⟨2, false, 2⟩, ⟨2, false, 3⟩, ⟨3, false, 4⟩]
      (by decide) (by decide) (by decide)).2.2.2⟩

theorem null_free_of_matches {ln : Bool} {func : Int → Int → Bool} {v : Int}
    {input : List SegmentPosition}
    (hln : ln = false → ∀ p ∈ input, p.is_null = false)
    {p : SegmentPosition} (hpin : p ∈ input) (hm : vecMatches ln func v p = true) :
    p.is_null = false := by
  cases ln with
  | false => exact hln rfl p hpin
  | true =>
    simp only [vecMatches, Bool.not_true, Bool.false_or, Bool.and_eq_true] at hm
    simpa using hm.1

/-- C5: no emitted position is null. On the sorted path one binary search
removes the entire leading or trailing null run before any boundary
computation (the narrowed window equals the null-free sub-list), and every
position emitted by `scan_sorted_segment` is non-null; `_unary_scan` skips
nulls unconditionally; `_unary_scan_with_value` emits no null position
provided `LeftIsNullable` truthfully reflects whether the input can contain
nulls. -/
theorem claim_C5_null_exclusion :
    (∀ (o : OrderByMode) (cond : PredicateCondition) (v : Int) (l : List SegmentPosition),
        sortedPer o l → isSupportedCondition cond = true →
        ∃ res, scanSortedSegment o cond v l = some res ∧
          ∀ p ∈ res, p.is_null = false) ∧
      (∀ (o : OrderByMode) (l : List SegmentPosition), sortedPer o l →
        subrange l (excludeNulls (isNullsFirstOf o) l 0 l.length).1
            (excludeNulls (isNullsFirstOf o) l 0 l.length).2 =
          l.filter (fun p => !p.is_null)) ∧
      (∀ (func : Int → Bool) (cid : Nat) (input : List SegmentPosition),
        ∀ rid ∈ unaryScan func cid input,
          ∃ p, p ∈ input ∧ p.is_null = false ∧ rid = RowID.mk cid p.chunk_offset) ∧
      (∀ (ln vec : Bool) (func : Int → Int → Bool) (v : Int) (cid : Nat)
          (input : List SegmentPosition),
        (ln = false → ∀ p ∈ input, p.is_null = false) →
        (∀ p ∈ input, p.chunk_offset < 2 ^ 32) →
        ∀ rid ∈ unaryScanWithValue ln vec func v cid input,
          ∃ p, p ∈ input ∧ p.is_null = false ∧ rid = RowID.mk cid p.chunk_offset) := by
  refine ⟨?_, ?_, ?_, ?_⟩
  · intro o cond v l hs hc
    refine ⟨_, scanSortedSegment_eq_filter hs hc, ?_⟩
    intro p hp
    have h1 := (List.mem_filter.mp (List.mem_filter.mp hp).1).2
    simpa using h1
  · intro o l hs
    exact (excludeNulls_spec hs).2.2
  · intro func cid input rid hrid
    rw [unaryScan_eq_filterMap] at hrid
    obtain ⟨p, hpmem, hpeq⟩ := List.mem_map.mp hrid
    rw [List.mem_filter] at hpmem
    obtain ⟨hpin, hpf⟩ := hpmem
    rw [Bool.and_eq_true] at hpf
    exact ⟨p, hpin, by simpa using hpf.1, hpeq.symm⟩
  · intro ln vec func v cid input hln hoff rid hrid
    cases vec with
    | true =>
      have hloop : unaryScanWithValue ln true func v cid input =
          unaryScanWithValueVecLoop ln func v cid input.length input := rfl
      rw [hloop] at hrid
      obtain ⟨sub, hsub, hmatch, heq⟩ :=
        vecLoop_structure ln func v cid input.length input le_rfl hoff
      rw [heq] at hrid
      obtain ⟨p, hpsub, hpeq⟩ := List.mem_map.mp hrid
      have hpin := hsub.subset hpsub
      exact ⟨p, hpin, null_free_of_matches hln hpin (hmatch p hpsub), hpeq.symm⟩
    | false =>
      have hloop : unaryScanWithValue ln false func v cid input =
          unaryScanWithValueScalar ln func v cid input := rfl
      rw [hloop] at hrid
      obtain ⟨sub, hsub, hmatch, heq⟩ :=
        unaryScanWithValueScalar_structure ln func v cid input
      rw [heq] at hrid
      obtain ⟨p, hpsub, hpeq⟩ := List.mem_map.mp hrid
      have hpin := hsub.subset hpsub
      exact ⟨p, hpin, null_free_of_matches hln hpin (hmatch p hpsub), hpeq.symm⟩

/-- Witness for C5 at concrete inputs: a sorted ascending array with a
leading null for the narrowed path, and a two-element array with one null
for the two scan loops. -/
theorem claim_C5_witness :
    (sortedPer OrderByMode.Ascending
        [⟨0, true, 0⟩, ⟨1, false, 1⟩, ⟨2, false, 2⟩] ∧
      ∃ res, scanSortedSegment OrderByMode.Ascending PredicateCondition.LessThanEquals 2
          [⟨0, true, 0⟩, ⟨1, false, 1⟩, ⟨2, false, 2⟩] = some res ∧
        ∀ p ∈ res, p.is_null = false) ∧
      (∀ rid ∈ unaryScan (fun _ => true) 0 [⟨7, true, 0⟩, ⟨8, false, 1⟩],
        ∃ p, p ∈ ([⟨7, true, 0⟩, ⟨8, false, 1⟩] : List SegmentPosition) ∧
          p.is_null = false ∧ rid = RowID.mk 0 p.chunk_offset) ∧
      (∀ rid ∈ unaryScanWithValue true true (fun _ _ => true) 0 0
          [⟨7, true, 0⟩, ⟨8, false, 1⟩],
        ∃ p, p ∈ ([⟨7, true, 0⟩, ⟨8, false, 1⟩] : List SegmentPosition) ∧
          p.is_null = false ∧ rid = RowID.mk 0 p.chunk_offset) :=
  ⟨⟨sortedPer_of_B (by decide),
      claim_C5_null_exclusion.1 OrderByMode.Ascending PredicateCondition.LessThanEquals 2
        [⟨0, true, 0⟩, ⟨1, false, 1⟩, ⟨2, false, 2⟩] (sortedPer_of_B (by decide)) (by decide)⟩,
    claim_C5_null_exclusion.2.2.1 (fun _ => true) 0 [⟨7, true, 0⟩, ⟨8, false, 1⟩],
    claim_C5_null_exclusion.2.2.2 true true (fun _ _ => true) 0 0
      [⟨7, true, 0⟩, ⟨8, false, 1⟩] (by intro h; cases h) (by decide)⟩

theorem pairwise_offsets_of_map {cid : Nat} {input sub : List SegmentPosition}
    (hsub : sub.Sublist input)
    (hinc : input.Pairwise (fun a b => a.chunk_offset < b.chunk_offset)) :
    (sub.map (fun p => RowID.mk cid p.chunk_offset)).Pairwise
      (fun a b => a.chunk_offset < b.chunk_offset) := by
  rw [List.pairwise_map]
  exact hinc.sublist hsub

/-- C6: for each scan loop (`_unary_scan`, `_unary_scan_with_value` on either
path, `_binary_scan`), if the input positions have strictly increasing chunk
offsets then the emitted `RowID`s have strictly increasing chunk offsets in
the order produced (the scans never re-sort). -/
theorem claim_C6_offsets_strictly_increasing :
    (∀ (func : Int → Bool) (cid : Nat) (input : List SegmentPosition),
        input.Pairwise (fun a b => a.chunk_offset < b.chunk_offset) →
        (unaryScan func cid input).Pairwise
          (fun a b => a.chunk_offset < b.chunk_offset)) ∧
      (∀ (ln vec : Bool) (func : Int → Int → Bool) (v : Int) (cid : Nat)
          (input : List SegmentPosition),
        input.Pairwise (fun a b => a.chunk_offset < b.chunk_offset) →
        (∀ p ∈ input, p.chunk_offset < 2 ^ 32) →
        (unaryScanWithValue ln vec func v cid input).Pairwise
          (fun a b => a.chunk_offset < b.chunk_offset)) ∧
      (∀ (func : Int → Int → Bool) (cid : Nat) (left right : List SegmentPosition),
        left.Pairwise (fun a b => a.chunk_offset < b.chunk_offset) →
        (binaryScan func cid left right).Pairwise
          (fun a b => a.chunk_offset < b.chunk_offset)) := by
  refine ⟨?_, ?_, ?_⟩
  · intro func cid input hinc
    rw [unaryScan_eq_filterMap]
    exact pairwise_offsets_of_map (List.filter_sublist _) hinc
  · intro ln vec func v cid input hinc hoff
    cases vec with
    | true =>
      obtain ⟨sub, hsub, _, heq⟩ :=
        vecLoop_structure ln func v cid input.length input le_rfl hoff
      have hloop : unaryScanWithValue ln true func v cid input =
          unaryScanWithValueVecLoop ln func v cid input.length input := rfl
      rw [hloop, heq]
      exact pairwise_offsets_of_map hsub hinc
    | false =>
      obtain ⟨sub, hsub, _, heq⟩ :=
        unaryScanWithValueScalar_structure ln func v cid input
      have hloop : unaryScanWithValue ln false func v cid input =
          unaryScanWithValueScalar ln func v cid input := rfl
      rw [hloop, heq]
      exact pairwise_offsets_of_map hsub hinc
  · intro func cid left right hinc
    obtain ⟨sub, hsub, _, heq⟩ := binaryScan_structure func cid left right
    rw [heq]
    exact pairwise_offsets_of_map hsub hinc

/-- Witness for C6 at a concrete three-element input with strictly increasing
offsets. -/
theorem claim_C6_witness :
    (([⟨1, false, 0⟩, ⟨2, true, 1⟩, ⟨3, false, 2⟩] : List SegmentPosition).Pairwise
        (fun a b => a.chunk_offset < b.chunk_offset) ∧
      (unaryScan (fun _ => true) 0
          [⟨1, false, 0⟩, ⟨2, true, 1⟩, ⟨3, false, 2⟩]).Pairwise
        (fun a b => a.chunk_offset < b.chunk_offset)) ∧
      ((unaryScanWithValue false true (fun _ _ => true) 0 0
          [⟨1, false, 0⟩, ⟨2, true, 1⟩, ⟨3, false, 2⟩]).Pairwise
        (fun a b => a.chunk_offset < b.chunk_offset)) ∧
      ((binaryScan (fun x y => decide (x = y)) 0
          [⟨1, false, 0⟩, ⟨2, true, 1⟩, ⟨3, false, 2⟩]
          [⟨1, false, 0⟩, ⟨5, false, 1⟩, ⟨3, false, 2⟩]).Pairwise
        (fun a b => a.chunk_offset < b.chunk_offset)) :=
  ⟨⟨by decide,
      claim_C6_offsets_strictly_increasing.1 (fun _ => true) 0
        [⟨1, false, 0⟩, ⟨2, true, 1⟩, ⟨3, false, 2⟩] (by decide)⟩,
    claim_C6_offsets_strictly_increasing.2.1 false true (fun _ _ => true) 0 0
      [⟨1, false, 0⟩, ⟨2, true, 1⟩, ⟨3, false, 2⟩] (by decide) (by decide),
    claim_C6_offsets_strictly_increasing.2.2 (fun x y => decide (x = y)) 0
      [⟨1, false, 0⟩, ⟨2, true, 1⟩, ⟨3, false, 2⟩]
      [⟨1, false, 0⟩, ⟨5, false, 1⟩, ⟨3, false, 2⟩] (by decide)⟩

/-- C2 (counterexample to the claim as stated): on a 17-element range whose
first position has chunk offset `2^32 - 1`, every position matching, the
block-buffered vectorized path drops that position (its buffer entry
`chunk_offset + 1` wraps to zero and is decoded as a non-match) while the
scalar fallback emits it, so the two paths differ. -/
theorem claim_C2_counterexample :
    unaryScanWithValue false true (fun _ _ => true) 0 0
        (⟨0, false, 2 ^ 32 - 1⟩ :: (List.range 16).map (fun i => ⟨0, false, i + 1⟩)) ≠
      unaryScanWithValue false false (fun _ _ => true) 0 0
        (⟨0, false, 2 ^ 32 - 1⟩ :: (List.range 16).map (fun i => ⟨0, false, i + 1⟩)) := by
  decide

/-- C2 (amended): for every input range in which no position's
`chunk_offset + 1` wraps modulo `2^32` (i.e. no offset equals `2^32 - 1`) and
every length — including exact multiples of the block size, one less and one
more — the block-buffered vectorized path of `_unary_scan_with_value` and its
scalar fallback loop produce identical match lists: the same `RowID`s in the
same order. -/
theorem claim_C2_vectorized_eq_scalar (ln : Bool) (func : Int → Int → Bool) (v : Int)
    (cid : Nat) (input : List SegmentPosition)
    (hoff : ∀ p ∈ input, p.chunk_offset + 1 < 2 ^ 32) :
    unaryScanWithValue ln true func v cid input =
      unaryScanWithValue ln false func v cid input := by
  unfold unaryScanWithValue
  rw [if_pos rfl, if_neg (by simp)]
  exact vecLoop_eq_scalar ln func v cid input.length input le_rfl hoff

/-- Witness for amended C2: 17 positions (one more than the block size) with
small offsets; the vectorized and scalar paths agree. -/
theorem claim_C2_witness :
    (∀ p ∈ (List.range 17).map (fun i => (⟨Int.ofNat i, false, i⟩ : SegmentPosition)),
        p.chunk_offset + 1 < 2 ^ 32) ∧
      unaryScanWithValue false true (fun x y => decide (y ≤ x)) 5 0
          ((List.range 17).map (fun i => (⟨Int.ofNat i, false, i⟩ : SegmentPosition))) =
        unaryScanWithValue false false (fun x y => decide (y ≤ x)) 5 0
          ((List.range 17).map (fun i => (⟨Int.ofNat i, false, i⟩ : SegmentPosition))) :=
  ⟨by decide,
    claim_C2_vectorized_eq_scalar false (fun x y => decide (y ≤ x)) 5 0
      ((List.range 17).map (fun i => (⟨Int.ofNat i, false, i⟩ : SegmentPosition))) (by decide)⟩

/-- C10: inside one block of the vectorized fast path the buffer entry is
`match_flag * (chunk_offset + 1)` in unsigned 32-bit arithmetic and the
expansion decodes an element as a match exactly when its entry is non-zero;
consequently, for every element whose `chunk_offset + 1` does not wrap to
zero modulo `2^32`, the element is emitted iff it is non-null (as far as
`LeftIsNullable` requires) and satisfies the comparison, and the emitted
offset equals the element's chunk offset. -/
theorem claim_C10_block_buffer_decode (ln : Bool) (func : Int → Int → Bool) (v : Int)
    (cid : Nat) (block : List SegmentPosition) (hlen : block.length ≤ 64) :
    processBlock ln func v cid block =
        ((fillBuffer ln func v block).filter (fun x => decide (x ≠ 0))).map
          (fun x => RowID.mk cid (x - 1)) ∧
      (∀ p : SegmentPosition, p.chunk_offset + 1 < 2 ^ 32 →
        ((vecBufferEntry ln func v p ≠ 0 ↔ vecMatches ln func v p = true) ∧
          (vecMatches ln func v p = true →
            vecBufferEntry ln func v p - 1 = p.chunk_offset))) ∧
      ((∀ p ∈ block, p.chunk_offset + 1 < 2 ^ 32) →
        processBlock ln func v cid block =
          (block.filter (vecMatches ln func v)).map
            (fun p => RowID.mk cid p.chunk_offset)) := by
  refine ⟨processBlock_eq ln func v cid block hlen, ?_, ?_⟩
  · intro p hw
    constructor
    · constructor
      · exact fun h => vecMatches_of_entry_ne_zero h
      · intro hm
        rw [entry_eq_of_matches hm hw]
        omega
    · intro hm
      rw [entry_eq_of_matches hm hw]
      omega
  · intro hoff
    rw [processBlock_eq_scalar ln func v cid block hlen hoff,
      unaryScanWithValueScalar_eq_filterMap]

/-- Witness for C10 at a concrete two-element block. -/
theorem claim_C10_witness :
    (([⟨4, false, 0⟩, ⟨6, true, 1⟩] : List SegmentPosition).length ≤ 64) ∧
      processBlock true (fun x y => decide (x = y)) 4 0
          [⟨4, false, 0⟩, ⟨6, true, 1⟩] =
        ((fillBuffer true (fun x y => decide (x = y)) 4
            [⟨4, false, 0⟩, ⟨6, true, 1⟩]).filter (fun x => decide (x ≠ 0))).map
          (fun x => RowID.mk 0 (x - 1)) ∧
      ((∀ p ∈ ([⟨4, false, 0⟩, ⟨6, true, 1⟩] : List SegmentPosition),
          p.chunk_offset + 1 < 2 ^ 32) →
        processBlock true (fun x y => decide (x = y)) 4 0
            [⟨4, false, 0⟩, ⟨6, true, 1⟩] =
          ([⟨4, false, 0⟩, ⟨6, true, 1⟩].filter
              (vecMatches true (fun x y => decide (x = y)) 4)).map
            (fun p => RowID.mk 0 p.chunk_offset)) :=
  ⟨by decide,
    (claim_C10_block_buffer_decode true (fun x y => decide (x = y)) 4 0
      [⟨4, false, 0⟩, ⟨6, true, 1⟩] (by decide)).1,
    (claim_C10_block_buffer_decode true (fun x y => decide (x = y)) 4 0
      [⟨4, false, 0⟩, ⟨6, true, 1⟩] (by decide)).2.2⟩

/-- C8: whenever a non-null position filter is supplied to
`segment_with_iterators` and the segment's iterable does not support point
access, the call fails with the fatal capability-not-supported error (the
functor is never invoked), whichever resolution strategy is active. -/
theorem claim_C8_position_filter_capability_failure (isDebug : Bool)
    (te : SegmentIterationTypeErasure) (seg : Segment) (pf : List RowID)
    (h : seg.pointAccessible = false) :
    segmentWithIteratorsFiltered isDebug te seg (some pf) = none := by
  simp [segmentWithIteratorsFiltered, h]

/-- Witness for C8 at a concrete non-point-accessible segment. -/
theorem claim_C8_witness :
    (Segment.mk [⟨1, false, 0⟩] false).pointAccessible = false ∧
      segmentWithIteratorsFiltered true SegmentIterationTypeErasure.Always
        (Segment.mk [⟨1, false, 0⟩] false) (some [RowID.mk 0 0]) = none ∧
      segmentWithIteratorsFiltered false SegmentIterationTypeErasure.OnlyInDebug
        (Segment.mk [⟨1, false, 0⟩] false) (some [RowID.mk 0 0]) = none :=
  ⟨rfl,
    claim_C8_position_filter_capability_failure true SegmentIterationTypeErasure.Always
      (Segment.mk [⟨1, false, 0⟩] false) [RowID.mk 0 0] rfl,
    claim_C8_position_filter_capability_failure false SegmentIterationTypeErasure.OnlyInDebug
      (Segment.mk [⟨1, false, 0⟩] false) [RowID.mk 0 0] rfl⟩

/-- C9: calling `segment_with_iterators` (or `segment_for_each`) with a null
position filter behaves identically to the overload without a filter: the
whole segment is iterated and no capability check or error can occur. -/
theorem claim_C9_null_filter_identical (isDebug : Bool)
    (te : SegmentIterationTypeErasure) (seg : Segment) :
    segmentWithIteratorsFiltered isDebug te seg none =
        segmentWithIterators isDebug te seg ∧
      (segmentWithIteratorsFiltered isDebug te seg none).isSome = true ∧
      segmentForEachFiltered isDebug te seg none = segmentForEach isDebug te seg ∧
      (segmentForEachFiltered isDebug te seg none).isSome = true :=
  ⟨rfl, rfl, rfl, rfl⟩

end Hyrise
